import Mathlib

/-!
Verification of a dwm-style window manager (src/dwm.c, src/config.def.h).

This file shallowly embeds the state-relevant parts of the window manager:
per-client and per-monitor records, size-hint application, the tile and
monocle layouts, the focus stack, tag/tagset operations, fullscreen
handling, and the ConfigureRequest handler.  X11 calls (drawing, property
writes, input focus, stacking) have no effect on the embedded state and are
dropped; every field the C code mutates is modelled.

Conventions:
- C `int` is `Int`; C `unsigned int` is `Nat` reduced mod 2^32 where the
  C code can wrap (helpers `toU`, `uadd`, `usub`, `toI`).
- C truncated division/remainder (`/`, `%` on int) are `Int.tdiv`/`Int.tmod`.
- C `float` quantities (`mfact`, `mina`, `maxa`) are modelled as exact
  rationals; float-to-integer conversion is truncation toward zero
  (`ftrunc`).
- The intrusive linked lists (`clients` via `next`, `stack` via `snext`)
  become a `List Client` in insertion order plus a `List Nat` of window ids
  in focus order; `sel` stores the selected window id.
- The configuration of config.def.h is fixed where the code fixes it:
  nine tags (`TAGMASK = 511`), `resizehints = 1`, `borderpx = 1`,
  `mfact = 0.55`, `nmaster = 1`, layout table `[tile, floating, monocle]`.
-/

namespace Dwm

/-- C unsigned-int modulus. -/
def U32 : Nat := 4294967296

/-- C conversion int -> unsigned int (reduce mod 2^32). -/
def toU (i : Int) : Nat := (i % (4294967296 : Int)).toNat

/-- C unsigned addition (wraps mod 2^32). -/
def uadd (a b : Nat) : Nat := (a + b) % U32

/-- C unsigned subtraction (wraps mod 2^32); `a` is kept below 2^32 by construction. -/
def usub (a b : Nat) : Nat := (a % U32 + U32 - b % U32) % U32

/-- C conversion unsigned int -> int (two's complement reinterpretation). -/
def toI (n : Nat) : Int :=
  let r := n % U32
  if r < 2147483648 then (r : Int) else (r : Int) - 4294967296

/-- C float-to-int conversion: truncation toward zero (the truncated
division of the rational's numerator by its denominator). -/
def ftrunc (q : Rat) : Int := Int.tdiv q.num (q.den : Int)

/-- Truncated product of an integer and a rational: the C expression
`(unsigned)(int_value * float_value)` evaluated in exact rational
arithmetic before the truncation. -/
def fmulTrunc (i : Int) (q : Rat) : Int := Int.tdiv (i * q.num) ((q.den : Nat) : Int)

/-- The `mfact = 0.55` of config.def.h, as an explicit rational literal. -/
def mfact55 : Rat := ⟨11, 20, by decide, by decide⟩

/-- Number of tags in config.def.h (`tags` has nine entries). -/
def NTAGS : Nat := 9

/-- Macro TAGMASK: `(1 << LENGTH(tags)) - 1 = 511`. -/
def TAGMASK : Nat := (1 <<< NTAGS) - 1

/-- The layout table entries of config.def.h: tile has an arrange function,
floating (`><>`) has none, monocle has one. -/
inductive Lay where
  | tileL
  | floatL
  | monocleL
deriving DecidableEq, Repr

/-- Whether a layout's `arrange` pointer is non-null. -/
def Lay.hasArrange : Lay → Bool
  | .floatL => false
  | _ => true

/-- Layout symbol strings of config.def.h. -/
def Lay.symbol : Lay → String
  | .tileL => "[]="
  | .floatL => "><>"
  | .monocleL => "[M]"

/-- Per-client state (struct Client of dwm.c), without the X-only parts
(`name` is kept, `next`/`snext`/`mon` become list/ids in `Monitor`). -/
structure Client where
  name : String := ""
  mina : Rat := 0
  maxa : Rat := 0
  x : Int := 0
  y : Int := 0
  w : Int := 0
  h : Int := 0
  oldx : Int := 0
  oldy : Int := 0
  oldw : Int := 0
  oldh : Int := 0
  basew : Int := 0
  baseh : Int := 0
  incw : Int := 0
  inch : Int := 0
  maxw : Int := 0
  maxh : Int := 0
  minw : Int := 0
  minh : Int := 0
  bw : Int := 0
  oldbw : Int := 0
  tags : Nat := 0
  isfixed : Bool := false
  isfloating : Bool := false
  isurgent : Bool := false
  neverfocus : Bool := false
  oldstate : Bool := false
  isfullscreen : Bool := false
  win : Nat := 0

instance : Inhabited Client := ⟨{}⟩

instance : DecidableEq Client := fun a b => by
  cases a
  cases b
  exact decidable_of_iff _ (iff_of_eq (Client.mk.injEq ..)).symm

/-- Macro WIDTH: width including border. -/
def WIDTH (c : Client) : Int := c.w + 2 * c.bw

/-- Macro HEIGHT: height including border. -/
def HEIGHT (c : Client) : Int := c.h + 2 * c.bw

/-- Per-monitor state (struct Monitor of dwm.c); the intrusive `clients` and
`stack` lists become a list of records and a list of window ids.  The C
field `by` (bar y-coordinate) is renamed `mby` (`by` is reserved). -/
structure Monitor where
  ltsymbol : String := "[]="
  mfact : Rat := mfact55
  nmaster : Nat := 1
  num : Int := 0
  mby : Int := 0
  mx : Int := 0
  my : Int := 0
  mw : Int := 0
  mh : Int := 0
  wx : Int := 0
  wy : Int := 0
  ww : Int := 0
  wh : Int := 0
  seltags : Bool := false
  sellt : Bool := false
  tagset0 : Nat := 1
  tagset1 : Nat := 1
  showbar : Bool := true
  topbar : Bool := true
  clients : List Client := []
  sel : Option Nat := none
  stack : List Nat := []
  lt0 : Lay := .tileL
  lt1 : Lay := .floatL

instance : DecidableEq Monitor := fun a b => by
  cases a
  cases b
  exact decidable_of_iff _ (iff_of_eq (Monitor.mk.injEq ..)).symm

/-- The tagset slot selected by `seltags` (C: `m->tagset[m->seltags]`). -/
def Monitor.activeTagset (m : Monitor) : Nat :=
  if m.seltags then m.tagset1 else m.tagset0

/-- Write the tagset slot selected by `seltags`. -/
def Monitor.setActiveTagset (m : Monitor) (v : Nat) : Monitor :=
  if m.seltags then { m with tagset1 := v } else { m with tagset0 := v }

/-- The layout slot selected by `sellt` (C: `m->lt[m->sellt]`). -/
def Monitor.activeLayout (m : Monitor) : Lay :=
  if m.sellt then m.lt1 else m.lt0

/-- Macro ISVISIBLE: the client shares a tag with the active tagset. -/
def isvisible (ts : Nat) (c : Client) : Bool := c.tags &&& ts != 0

/-- A client the layouts arrange: visible and not floating (cf. `nexttiled`). -/
def tiledB (ts : Nat) (c : Client) : Bool := !c.isfloating && isvisible ts c

/-- Runtime/compile-time globals used by the geometry code: bar height `bh`,
screen size `sw`/`sh`, and config.def.h's `resizehints` and `borderpx`. -/
structure Cfg where
  bh : Int := 17
  sw : Int := 0
  sh : Int := 0
  resizehints : Bool := true
  borderpx : Int := 1
deriving DecidableEq, Repr

/-- A proposed geometry, the `(x, y, w, h)` in-out arguments of
`applysizehints`. -/
structure G4 where
  gx : Int
  gy : Int
  gw : Int
  gh : Int
deriving DecidableEq, Repr

/-- The containment step of `applysizehints`: if the window lies completely
outside the screen (interact) or its monitor's window area (otherwise), pull
it back in.  Uses the client's stored size via WIDTH/HEIGHT, exactly as the
C code does. -/
def containGeom (cfg : Cfg) (m : Monitor) (c : Client) (interact : Bool)
    (g : G4) : G4 :=
  if interact then
    let x := if g.gx > cfg.sw then cfg.sw - WIDTH c else g.gx
    let y := if g.gy > cfg.sh then cfg.sh - HEIGHT c else g.gy
    let x := if x + g.gw + 2 * c.bw < 0 then 0 else x
    let y := if y + g.gh + 2 * c.bw < 0 then 0 else y
    ⟨x, y, g.gw, g.gh⟩
  else
    let x := if g.gx ≥ m.wx + m.ww then m.wx + m.ww - WIDTH c else g.gx
    let y := if g.gy ≥ m.wy + m.wh then m.wy + m.wh - HEIGHT c else g.gy
    let x := if x + g.gw + 2 * c.bw ≤ m.wx then m.wx else x
    let y := if y + g.gh + 2 * c.bw ≤ m.wy then m.wy else y
    ⟨x, y, g.gw, g.gh⟩

/-- The ICCCM 4.1.2.3 block of `applysizehints`: base/aspect/increment/
min-max adjustment of a proposed size. -/
def hintAdjust (c : Client) (w0 h0 : Int) : Int × Int :=
  let baseismin : Bool := c.basew == c.minw && c.baseh == c.minh
  let w := if baseismin then w0 else w0 - c.basew
  let h := if baseismin then h0 else h0 - c.baseh
  let p :=
    if 0 < c.mina ∧ 0 < c.maxa then
      if c.maxa < (w : Rat) / (h : Rat) then
        (ftrunc ((h : Rat) * c.maxa + 1 / 2), h)
      else if c.mina < (h : Rat) / (w : Rat) then
        (w, ftrunc ((w : Rat) * c.mina + 1 / 2))
      else (w, h)
    else (w, h)
  let w := if baseismin then p.1 - c.basew else p.1
  let h := if baseismin then p.2 - c.baseh else p.2
  let w := if c.incw ≠ 0 then w - Int.tmod w c.incw else w
  let h := if c.inch ≠ 0 then h - Int.tmod h c.inch else h
  let w := max (w + c.basew) c.minw
  let h := max (h + c.baseh) c.minh
  let w := if c.maxw ≠ 0 then min w c.maxw else w
  let h := if c.maxh ≠ 0 then min h c.maxh else h
  (w, h)

/-- Whether the size-hint block of `applysizehints` runs: floating client,
floating layout, or the `resizehints` configuration flag. -/
def hintsApply (cfg : Cfg) (m : Monitor) (c : Client) : Bool :=
  cfg.resizehints || c.isfloating || !(m.activeLayout).hasArrange

/-- The `applysizehints` function of dwm.c, as a function from the proposed
geometry to the adjusted one (the C function mutates its in-out pointers;
its boolean result is recomputed by `resize` below). -/
def applysizehints (cfg : Cfg) (m : Monitor) (c : Client) (interact : Bool)
    (g : G4) : G4 :=
  let w := max 1 g.gw
  let h := max 1 g.gh
  let g1 := containGeom cfg m c interact ⟨g.gx, g.gy, w, h⟩
  let h := if g1.gh < cfg.bh then cfg.bh else g1.gh
  let w := if g1.gw < cfg.bh then cfg.bh else g1.gw
  if hintsApply cfg m c then
    let p := hintAdjust c w h
    ⟨g1.gx, g1.gy, p.1, p.2⟩
  else
    ⟨g1.gx, g1.gy, w, h⟩

/-- The `resizeclient` function: store the geometry, saving the previous
one in the `old*` fields. -/
def resizeclient (c : Client) (g : G4) : Client :=
  { c with
    oldx := c.x, x := g.gx
    oldy := c.y, y := g.gy
    oldw := c.w, w := g.gw
    oldh := c.h, h := g.gh }

/-- The `resize` function: apply size hints and, exactly when the adjusted
geometry differs from the stored one, commit it via `resizeclient`. -/
def resize (cfg : Cfg) (m : Monitor) (c : Client) (g : G4)
    (interact : Bool) : Client :=
  let g' := applysizehints cfg m c interact g
  if g'.gx ≠ c.x ∨ g'.gy ≠ c.y ∨ g'.gw ≠ c.w ∨ g'.gh ≠ c.h then
    resizeclient c g'
  else c

/-- The `nexttiled` function: first visible non-floating client of a list. -/
def nexttiled (ts : Nat) (l : List Client) : Option Client :=
  l.find? (tiledB ts)

/-- The sublist strictly after the (first) client with window id `wn`
(models the pointer `c->next`). -/
def listAfter (l : List Client) (wn : Nat) : List Client :=
  match l.dropWhile (fun c => c.win != wn) with
  | [] => []
  | _ :: t => t

/-- The inner loop of `tile`: walk the client list; the i-th tiled client is
resized into the master column (i < nmaster) or the stack column, with the
`my`/`ty` accumulators and the unsigned `h = (wh - acc) / remaining`
recurrence of the C code.  Non-tiled clients are left untouched. -/
def tileLoop (cfg : Cfg) (m : Monitor) (ts mwN n : Nat) :
    Nat → Nat → Nat → List Client → List Client
  | _, _, _, [] => []
  | i, my, ty, c :: cs =>
    if tiledB ts c then
      if i < m.nmaster then
        let hN := usub (toU m.wh) my / usub (min n m.nmaster) i
        let c' := resize cfg m c
          ⟨m.wx, toI (uadd (toU m.wy) my),
           toI (usub mwN (toU (2 * c.bw))),
           toI (usub hN (toU (2 * c.bw)))⟩ false
        c' :: tileLoop cfg m ts mwN n (i + 1)
          (uadd my (toU (HEIGHT c'))) ty cs
      else
        let hN := usub (toU m.wh) ty / usub n i
        let c' := resize cfg m c
          ⟨toI (uadd (toU m.wx) mwN), toI (uadd (toU m.wy) ty),
           toI (usub (usub (toU m.ww) mwN) (toU (2 * c.bw))),
           toI (usub hN (toU (2 * c.bw)))⟩ false
        c' :: tileLoop cfg m ts mwN n (i + 1) my
          (uadd ty (toU (HEIGHT c'))) cs
    else
      c :: tileLoop cfg m ts mwN n i my ty cs

/-- The `tile` layout of dwm.c: master column of width `ww * mfact` when a
stack column is needed, heights by the residual-division recurrence.  The
C locals `i, n, h, mw, my, ty` are `unsigned int`, modelled mod 2^32. -/
def tile (cfg : Cfg) (m : Monitor) : Monitor :=
  let ts := m.activeTagset
  let n := m.clients.countP (tiledB ts)
  if n = 0 then m
  else
    let mwN : Nat :=
      if n > m.nmaster then
        if m.nmaster ≠ 0 then toU (fmulTrunc m.ww m.mfact) else 0
      else toU m.ww
    { m with clients := tileLoop cfg m ts mwN n 0 0 0 m.clients }

/-- The `monocle` layout of dwm.c: every tiled client is maximized over the
window area; the layout symbol is overridden to `"[n]"` with the count of
visible clients. -/
def monocle (cfg : Cfg) (m : Monitor) : Monitor :=
  let ts := m.activeTagset
  let n := m.clients.countP (isvisible ts)
  let m1 := if n > 0 then { m with ltsymbol := "[" ++ toString n ++ "]" } else m
  { m1 with clients := m1.clients.map (fun c =>
      if tiledB ts c then
        resize cfg m1 c ⟨m1.wx, m1.wy, m1.ww - 2 * c.bw, m1.wh - 2 * c.bw⟩ false
      else c) }

/-- Map an update over every client with window id `wn` (the C code mutates
the one record the pointer designates; window ids are unique in practice). -/
def updClients (l : List Client) (wn : Nat) (f : Client → Client) :
    List Client :=
  l.map (fun c => if c.win == wn then f c else c)

/-- The per-client effect of `showhide`: a visible client that floats (or
lives under a floating layout) and is not fullscreen is resized to its own
stored geometry through the size-hint path; everything else is moved in X
only, leaving the record unchanged. -/
def showhideClient (cfg : Cfg) (m : Monitor) (c : Client) : Client :=
  if isvisible m.activeTagset c then
    if (!(m.activeLayout).hasArrange || c.isfloating) && !c.isfullscreen then
      resize cfg m c ⟨c.x, c.y, c.w, c.h⟩ false
    else c
  else c

/-- The `showhide` function: walk the focus stack applying
`showhideClient` to each member (each stack entry names one client; the
recursion order of the C code does not matter for the stored state because
each step touches only that client's record). -/
def showhide (cfg : Cfg) (m : Monitor) : Monitor :=
  let cs := m.stack.foldl
    (fun cs wn => updClients cs wn (showhideClient cfg m)) m.clients
  { m with clients := cs }

/-- The `restack` function only issues X stacking/drawing requests; the
embedded state is unchanged. -/
def restack (m : Monitor) : Monitor := m

/-- The `arrangemon` function: copy the active layout's symbol and run its
arrange function (floating has none). -/
def arrangemon (cfg : Cfg) (m : Monitor) : Monitor :=
  let m1 := { m with ltsymbol := (m.activeLayout).symbol }
  match m1.activeLayout with
  | .tileL => tile cfg m1
  | .monocleL => monocle cfg m1
  | .floatL => m1

/-- The `arrange` function for a non-null monitor:
`showhide(m->stack); arrangemon(m); restack(m)`. -/
def arrange (cfg : Cfg) (m : Monitor) : Monitor :=
  restack (arrangemon cfg (showhide cfg m))

/-- The `wintoclient` lookup restricted to one monitor: first client whose
window id matches. -/
def findC (m : Monitor) (wn : Nat) : Option Client :=
  m.clients.find? (fun c => c.win == wn)

/-- First visible client in focus-stack order (the `for (t = stack; t &&
!ISVISIBLE(t); t = t->snext)` scans of `focus` and `detachstack`). -/
def firstVisible (m : Monitor) : Option Client :=
  m.stack.findSome? (fun wn =>
    match findC m wn with
    | some c => if isvisible m.activeTagset c then some c else none
    | none => none)

/-- The `attach` function: push onto the head of the client list. -/
def attach (m : Monitor) (c : Client) : Monitor :=
  { m with clients := c :: m.clients }

/-- The `detach` function: remove the client from the client list. -/
def detach (m : Monitor) (wn : Nat) : Monitor :=
  { m with clients := m.clients.eraseP (fun c => c.win == wn) }

/-- The `attachstack` function: push onto the head of the focus stack. -/
def attachstack (m : Monitor) (wn : Nat) : Monitor :=
  { m with stack := wn :: m.stack }

/-- The `detachstack` function: remove the client from the focus stack and,
if it was the selected client, select the first visible client remaining. -/
def detachstack (m : Monitor) (wn : Nat) : Monitor :=
  let m1 := { m with stack := m.stack.erase wn }
  if m1.sel == some wn then
    { m1 with sel := (firstVisible m1).map (·.win) }
  else m1

/-- The candidate chosen by the head of `focus`: the argument itself when it
is a visible client, else the first visible client in stack order
(`if (!c || !ISVISIBLE(c)) for (c = selmon->stack; ...)`). -/
def focusCandidate (oc : Option Nat) (m : Monitor) : Option Client :=
  match oc with
  | some wn =>
    match findC m wn with
    | some c => if isvisible m.activeTagset c then some c else firstVisible m
    | none => firstVisible m
  | none => firstVisible m

/-- The `focus` function: focus the candidate client if any — clear its
urgency, move it to the head of the focus stack and select it — else clear
the selection (X border/input-focus effects dropped).  `oc = none` models
`focus(NULL)`. -/
def focus (_cfg : Cfg) (oc : Option Nat) (m : Monitor) : Monitor :=
  match focusCandidate oc m with
  | some c =>
    let m1 :=
      if c.isurgent then
        { m with clients :=
            updClients m.clients c.win (fun d => { d with isurgent := false }) }
      else m
    let m2 := attachstack (detachstack m1 c.win) c.win
    { m2 with sel := some c.win }
  | none => { m with sel := none }

/-- The `pop` function: move the client to the head of the client list,
focus it and re-arrange.  (The C caller guarantees the pointer is a live
client of this monitor; an unknown id leaves the state unchanged.) -/
def pop (cfg : Cfg) (m : Monitor) (wn : Nat) : Monitor :=
  match findC m wn with
  | none => m
  | some c => arrange cfg (focus cfg (some wn) (attach (detach m wn) c))

/-- The `zoom` action: no-op under a floating layout or for a floating
selected client; otherwise pop the selected client to master, or, when it
already is the first tiled client, pop the next tiled client. -/
def zoom (cfg : Cfg) (m : Monitor) : Monitor :=
  let ts := m.activeTagset
  let selC : Option Client := match m.sel with
    | some wn => findC m wn
    | none => none
  if !(m.activeLayout).hasArrange
      || (match selC with | some c => c.isfloating | none => false) then
    m
  else
    let ft := nexttiled ts m.clients
    let sameAsFirst : Bool := match selC, ft with
      | none, none => true
      | some a, some b => a.win == b.win
      | _, _ => false
    if sameAsFirst then
      match selC with
      | none => m
      | some c =>
        match nexttiled ts (listAfter m.clients c.win) with
        | none => m
        | some c' => pop cfg m c'.win
    else
      match selC with
      | some c => pop cfg m c.win
      | none => m

/-- The `view` action: if the applied mask already equals the active tagset,
return; else flip `seltags` and, if the mask is nonzero, store it in the
now-active slot; then refocus and rearrange. -/
def view (cfg : Cfg) (ui : Nat) (m : Monitor) : Monitor :=
  if ui &&& TAGMASK == m.activeTagset then m
  else
    let m1 := { m with seltags := !m.seltags }
    let m2 := if ui &&& TAGMASK ≠ 0 then m1.setActiveTagset (ui &&& TAGMASK) else m1
    arrange cfg (focus cfg none m2)

/-- The `toggleview` action: XOR the active tagset with the masked argument;
refuse if the result would be zero. -/
def toggleview (cfg : Cfg) (ui : Nat) (m : Monitor) : Monitor :=
  let newtagset := m.activeTagset ^^^ (ui &&& TAGMASK)
  if newtagset ≠ 0 then
    arrange cfg (focus cfg none (m.setActiveTagset newtagset))
  else m

/-- The `tag` action: replace the selected client's tags by the masked
argument; refuse if there is no selected client or the mask is zero. -/
def tag (cfg : Cfg) (ui : Nat) (m : Monitor) : Monitor :=
  match m.sel with
  | some wn =>
    if ui &&& TAGMASK ≠ 0 then
      let cs := updClients m.clients wn (fun c => { c with tags := ui &&& TAGMASK })
      arrange cfg (focus cfg none { m with clients := cs })
    else m
  | none => m

/-- The `toggletag` action: XOR the selected client's tags with the masked
argument; refuse if the result would be zero. -/
def toggletag (cfg : Cfg) (ui : Nat) (m : Monitor) : Monitor :=
  match m.sel with
  | some wn =>
    match findC m wn with
    | some c =>
      let newtags := c.tags ^^^ (ui &&& TAGMASK)
      if newtags ≠ 0 then
        let cs := updClients m.clients wn (fun d => { d with tags := newtags })
        arrange cfg (focus cfg none { m with clients := cs })
      else m
    | none => m
  | none => m

/-- The client mutation of `setfullscreen` when entering fullscreen: save
the floating state and border, zero the border, float the client and (via
`resizeclient`, which saves the old geometry) fill the monitor. -/
def sfEnterClient (m : Monitor) (c : Client) : Client :=
  resizeclient
    { c with
      isfullscreen := true, oldstate := c.isfloating,
      oldbw := c.bw, bw := 0, isfloating := true }
    ⟨m.mx, m.my, m.mw, m.mh⟩

/-- The client mutation of `setfullscreen` when leaving fullscreen:
restore the floating state, border and geometry from the `old*` fields,
then `resizeclient` to that restored geometry. -/
def sfExitClient (c : Client) : Client :=
  let c1 := { c with
    isfullscreen := false, isfloating := c.oldstate,
    bw := c.oldbw, x := c.oldx, y := c.oldy, w := c.oldw, h := c.oldh }
  resizeclient c1 ⟨c1.x, c1.y, c1.w, c1.h⟩

/-- The `setfullscreen` function: entering fullscreen saves the floating
state, border and (via `resizeclient`) geometry in the `old*` fields, zeroes
the border, floats the client and fills the monitor; leaving fullscreen
restores all of them and rearranges. -/
def setfullscreen (cfg : Cfg) (m : Monitor) (wn : Nat) (full : Bool) :
    Monitor :=
  match findC m wn with
  | none => m
  | some c =>
    if full && !c.isfullscreen then
      { m with clients := updClients m.clients wn (fun _ => sfEnterClient m c) }
    else if !full && c.isfullscreen then
      arrange cfg
        { m with clients := updClients m.clients wn (fun _ => sfExitClient c) }
    else m

/-- A ConfigureRequest event, as far as the handler reads it: which of
CWX/CWY/CWWidth/CWHeight/CWBorderWidth are in `value_mask`, and the
requested values. -/
structure CRE where
  cwx : Bool := false
  cwy : Bool := false
  cww : Bool := false
  cwh : Bool := false
  cwbw : Bool := false
  ex : Int := 0
  ey : Int := 0
  ew : Int := 0
  eh : Int := 0
  ebw : Int := 0

/-- Step of `configurerequest` for `CWX`. -/
def crStepX (m : Monitor) (ev : CRE) (c : Client) : Client :=
  if ev.cwx then { c with oldx := c.x, x := m.mx + ev.ex } else c

/-- Step of `configurerequest` for `CWY`. -/
def crStepY (m : Monitor) (ev : CRE) (c : Client) : Client :=
  if ev.cwy then { c with oldy := c.y, y := m.my + ev.ey } else c

/-- Step of `configurerequest` for `CWWidth`. -/
def crStepW (ev : CRE) (c : Client) : Client :=
  if ev.cww then { c with oldw := c.w, w := ev.ew } else c

/-- Step of `configurerequest` for `CWHeight`. -/
def crStepH (ev : CRE) (c : Client) : Client :=
  if ev.cwh then { c with oldh := c.h, h := ev.eh } else c

/-- Step of `configurerequest`: re-center horizontally when the right edge
would pass the monitor's right edge. -/
def crStepCX (m : Monitor) (c : Client) : Client :=
  if c.x + c.w > m.mx + m.mw && c.isfloating then
    { c with x := m.mx + (Int.tdiv m.mw 2 - Int.tdiv (WIDTH c) 2) } else c

/-- Step of `configurerequest`: re-center vertically when the bottom edge
would pass the monitor's bottom edge. -/
def crStepCY (m : Monitor) (c : Client) : Client :=
  if c.y + c.h > m.my + m.mh && c.isfloating then
    { c with y := m.my + (Int.tdiv m.mh 2 - Int.tdiv (HEIGHT c) 2) } else c

/-- The client-record mutation of the floating branch of
`configurerequest`: apply the requested coordinates (saving the old ones),
then re-center on an axis whose far edge would leave the monitor. -/
def crFloatClient (m : Monitor) (ev : CRE) (c : Client) : Client :=
  crStepCY m (crStepCX m (crStepH ev (crStepW ev (crStepY m ev (crStepX m ev c)))))

/-- The managed-window branch of the `configurerequest` handler: a
border-width change is always honored; a floating client (or floating
layout) gets the requested geometry, re-centered on an axis whose far edge
would leave the monitor; a tiled client is only sent a synthetic notify.
Unmanaged windows (no client) are passed through to X unchanged. -/
def configurerequest (_cfg : Cfg) (m : Monitor) (wn : Nat) (ev : CRE) :
    Monitor :=
  match findC m wn with
  | none => m
  | some c =>
    if ev.cwbw then
      { m with clients :=
          updClients m.clients wn (fun d => { d with bw := ev.ebw }) }
    else if c.isfloating || !(m.activeLayout).hasArrange then
      { m with clients :=
          updClients m.clients wn (fun _ => crFloatClient m ev c) }
    else m

/-- The tag computation at the end of `applyrules`: the accumulated rule
tags if any survive the mask, else the monitor's active tagset.  `rtags`
stands for the OR of the tag masks of all matching rules (0 when none
match, as after `ecalloc`). -/
def applyrulesTags (m : Monitor) (rtags : Nat) : Nat :=
  if rtags &&& TAGMASK ≠ 0 then rtags &&& TAGMASK else m.activeTagset

/-- The freshly calloc'ed client of `manage` after the geometry and
`oldbw` assignments, carrying the property-derived fields of `pc`. -/
def mgInit (wn : Nat) (wax way waw wah waobw : Int) (pc : Client) : Client :=
  { pc with
    win := wn
    x := wax, oldx := wax
    y := way, oldy := way
    w := waw, oldw := waw
    h := wah, oldh := wah
    oldbw := waobw
    isfullscreen := false }

/-- The monitor/tag assignment of `manage`: a transient window inherits its
owner's tags, anything else goes through the rule table. -/
def mgTags (m : Monitor) (transientOf : Option Nat) (rtags : Nat)
    (rfloat : Bool) (pc : Client) (c : Client) : Client :=
  match transientOf.bind (findC m) with
  | some t => { c with tags := t.tags }
  | none => { c with isfloating := rfloat || pc.isfloating,
                     tags := applyrulesTags m rtags }

/-- The geometry clamping of `manage`: keep the window inside the monitor,
and below the bar when its x-center is over the bar. -/
def mgClamp (cfg : Cfg) (m : Monitor) (c : Client) : Client :=
  let c := if c.x + WIDTH c > m.mx + m.mw then
    { c with x := m.mx + m.mw - WIDTH c } else c
  let c := if c.y + HEIGHT c > m.my + m.mh then
    { c with y := m.my + m.mh - HEIGHT c } else c
  let c := { c with x := max c.x m.mx }
  let ylo : Int :=
    if m.mby == m.my && c.x + Int.tdiv c.w 2 ≥ m.wx
        && c.x + Int.tdiv c.w 2 < m.wx + m.ww then cfg.bh else m.my
  { c with y := max c.y ylo }

/-- The flag setup of `manage`: configured border width, derived `isfixed`
(`updatesizehints`), and floating inheritance for transient or fixed-size
windows. -/
def mgFlags (cfg : Cfg) (trans : Bool) (c : Client) : Client :=
  let c := { c with bw := cfg.borderpx }
  let c := { c with isfixed :=
    c.maxw ≠ 0 && c.minw ≠ 0 && c.maxw == c.minw && c.maxh == c.minh }
  if !c.isfloating then
    { c with isfloating := trans || c.isfixed, oldstate := trans || c.isfixed }
  else c

/-- The client record `manage` builds for a new window `wn` with
map-request geometry `(wax, way, waw, wah)` and original border `waobw`.
`pc` carries the fields read from X properties (size hints, urgency,
neverfocus, and the floating flag forced by a dialog window type);
`transientOf` is the managed owner for a transient window, `rtags`/`rfloat`
the outcome of the rule table otherwise.  The fullscreen window-type path
of `updatewindowtype` is outside this model. -/
def manageClient (cfg : Cfg) (m : Monitor) (wn : Nat)
    (wax way waw wah waobw : Int) (transientOf : Option Nat)
    (rtags : Nat) (rfloat : Bool) (pc : Client) : Client :=
  mgFlags cfg (transientOf.bind (findC m)).isSome
    (mgClamp cfg m
      (mgTags m transientOf rtags rfloat pc
        (mgInit wn wax way waw wah waobw pc)))

/-- The `manage` function: build the client record, attach it to the head
of both lists, select it, arrange the monitor, then `focus(NULL)`. -/
def manage (cfg : Cfg) (m : Monitor) (wn : Nat)
    (wax way waw wah waobw : Int) (transientOf : Option Nat)
    (rtags : Nat) (rfloat : Bool) (pc : Client) : Monitor :=
  let c := manageClient cfg m wn wax way waw wah waobw transientOf rtags rfloat pc
  let m1 := attachstack (attach m c) c.win
  let m2 := { m1 with sel := some c.win }
  focus cfg none (arrange cfg m2)

/-- The `unmanage` function: detach from both lists, refocus, rearrange
(X-side border restoration and property rewriting dropped). -/
def unmanage (cfg : Cfg) (m : Monitor) (wn : Nat) : Monitor :=
  arrange cfg (focus cfg none (detachstack (detach m wn) wn))

/-- A fresh monitor as `createmon` plus the geometry assignment of
`updategeom`/`updatebarpos` produce it: both tagset slots hold tag 1, the
defaults of config.def.h apply, and the lists are empty. -/
def initMonitor (mx my mw mh wx wy ww wh mby : Int) : Monitor :=
  { mx := mx, my := my, mw := mw, mh := mh
    wx := wx, wy := wy, ww := ww, wh := wh
    mby := mby
    tagset0 := 1, tagset1 := 1
    seltags := false, sellt := false
    mfact := mfact55, nmaster := 1
    lt0 := .tileL, lt1 := .floatL
    ltsymbol := "[]="
    clients := [], stack := [], sel := none }

/-- Identity-relevant projection of a client: window id and tags. -/
def ckey (c : Client) : Nat × Nat := (c.win, c.tags)

/-- The tag/tagset invariant: both tagset slots are nonzero and within
TAGMASK, and every managed client's tag mask is nonzero and within
TAGMASK. -/
def TagInv (m : Monitor) : Prop :=
  m.tagset0 ≠ 0 ∧ m.tagset1 ≠ 0 ∧
  m.tagset0 &&& TAGMASK = m.tagset0 ∧ m.tagset1 &&& TAGMASK = m.tagset1 ∧
  ∀ c ∈ m.clients, c.tags ≠ 0 ∧ c.tags &&& TAGMASK = c.tags

/-- The selection invariant: the selected window, when present, is a member
of the focus stack whose client record is visible. -/
def SelInv (m : Monitor) : Prop :=
  ∀ wn, m.sel = some wn →
    wn ∈ m.stack ∧ ∃ c, findC m wn = some c ∧ isvisible m.activeTagset c = true

/-- The fullscreen invariant for one client: a fullscreen client is
floating, has zero border width and fills its monitor's total geometry. -/
def FsClientInv (m : Monitor) (c : Client) : Prop :=
  c.isfullscreen = true →
    c.isfloating = true ∧ c.bw = 0 ∧
    c.x = m.mx ∧ c.y = m.my ∧ c.w = m.mw ∧ c.h = m.mh

/-- The fullscreen invariant over a monitor. -/
def FsInv (m : Monitor) : Prop := ∀ c ∈ m.clients, FsClientInv m c

/-- States reachable from a fresh monitor through the modelled operations
(the event handlers and user actions embedded above). -/
inductive Reach (cfg : Cfg) : Monitor → Prop where
  | init (mx my mw mh wx wy ww wh mby : Int) :
      Reach cfg (initMonitor mx my mw mh wx wy ww wh mby)
  | stepManage {m} (_ : Reach cfg m)
      (wn : Nat) (wax way waw wah waobw : Int) (transientOf : Option Nat)
      (rtags : Nat) (rfloat : Bool) (pc : Client) :
      Reach cfg (manage cfg m wn wax way waw wah waobw transientOf rtags rfloat pc)
  | stepUnmanage {m} (_ : Reach cfg m) (wn : Nat) :
      Reach cfg (unmanage cfg m wn)
  | stepFocus {m} (_ : Reach cfg m) (oc : Option Nat) :
      Reach cfg (focus cfg oc m)
  | stepView {m} (_ : Reach cfg m) (ui : Nat) : Reach cfg (view cfg ui m)
  | stepToggleview {m} (_ : Reach cfg m) (ui : Nat) :
      Reach cfg (toggleview cfg ui m)
  | stepTag {m} (_ : Reach cfg m) (ui : Nat) : Reach cfg (tag cfg ui m)
  | stepToggletag {m} (_ : Reach cfg m) (ui : Nat) :
      Reach cfg (toggletag cfg ui m)
  | stepZoom {m} (_ : Reach cfg m) : Reach cfg (zoom cfg m)
  | stepSetfullscreen {m} (_ : Reach cfg m) (wn : Nat) (full : Bool) :
      Reach cfg (setfullscreen cfg m wn full)
  | stepConfigurerequest {m} (_ : Reach cfg m) (wn : Nat) (ev : CRE) :
      Reach cfg (configurerequest cfg m wn ev)
  | stepArrange {m} (_ : Reach cfg m) : Reach cfg (arrange cfg m)

theorem resize_ckey (cfg : Cfg) (m : Monitor) (c : Client) (g : G4)
    (i : Bool) : ckey (resize cfg m c g i) = ckey c := by
  simp only [resize, resizeclient]
  split <;> rfl

theorem resize_isfloating (cfg : Cfg) (m : Monitor) (c : Client) (g : G4)
    (i : Bool) : (resize cfg m c g i).isfloating = c.isfloating := by
  simp only [resize, resizeclient]
  split <;> rfl

theorem resize_isfullscreen (cfg : Cfg) (m : Monitor) (c : Client) (g : G4)
    (i : Bool) : (resize cfg m c g i).isfullscreen = c.isfullscreen := by
  simp only [resize, resizeclient]
  split <;> rfl

theorem resize_bw (cfg : Cfg) (m : Monitor) (c : Client) (g : G4)
    (i : Bool) : (resize cfg m c g i).bw = c.bw := by
  simp only [resize, resizeclient]
  split <;> rfl

theorem updClients_map_ckey (l : List Client) (wn : Nat) (f : Client → Client)
    (hf : ∀ c, ckey (f c) = ckey c) :
    (updClients l wn f).map ckey = l.map ckey := by
  unfold updClients
  rw [List.map_map]
  apply List.map_congr_left
  intro c _
  cases h : c.win == wn <;> simp [Function.comp, h, hf]

theorem tileLoop_map_ckey (cfg : Cfg) (m : Monitor) (ts mwN n : Nat) :
    ∀ (i my ty : Nat) (l : List Client),
      (tileLoop cfg m ts mwN n i my ty l).map ckey = l.map ckey := by
  intro i my ty l
  induction l generalizing i my ty with
  | nil => rfl
  | cons c cs ih =>
    simp only [tileLoop]
    split
    · split <;> simp [resize_ckey, ih]
    · simp [ih]

theorem tile_map_ckey (cfg : Cfg) (m : Monitor) :
    (tile cfg m).clients.map ckey = m.clients.map ckey := by
  simp only [tile]
  split
  · rfl
  · exact tileLoop_map_ckey cfg m _ _ _ 0 0 0 m.clients

theorem monocle_map_ckey (cfg : Cfg) (m : Monitor) :
    (monocle cfg m).clients.map ckey = m.clients.map ckey := by
  simp only [monocle]
  split <;>
  · rw [List.map_map]
    apply List.map_congr_left
    intro c _
    cases h : tiledB m.activeTagset c <;> simp [Function.comp, h, resize_ckey]

theorem showhideClient_ckey (cfg : Cfg) (m : Monitor) (c : Client) :
    ckey (showhideClient cfg m c) = ckey c := by
  unfold showhideClient
  split
  · split
    · exact resize_ckey ..
    · rfl
  · rfl

theorem showhide_map_ckey (cfg : Cfg) (m : Monitor) :
    (showhide cfg m).clients.map ckey = m.clients.map ckey := by
  simp only [showhide]
  generalize m.clients = l
  induction m.stack generalizing l with
  | nil => rfl
  | cons wn st ih =>
    simp only [List.foldl_cons]
    rw [ih]
    exact updClients_map_ckey l wn _ (showhideClient_ckey cfg m)

theorem arrangemon_map_ckey (cfg : Cfg) (m : Monitor) :
    (arrangemon cfg m).clients.map ckey = m.clients.map ckey := by
  simp only [arrangemon]
  split
  · exact tile_map_ckey ..
  · exact monocle_map_ckey ..
  · rfl

theorem arrange_map_ckey (cfg : Cfg) (m : Monitor) :
    (arrange cfg m).clients.map ckey = m.clients.map ckey := by
  unfold arrange restack
  rw [arrangemon_map_ckey, showhide_map_ckey]

theorem arrange_shape (cfg : Cfg) (m : Monitor) :
    ∃ cs ls, arrange cfg m = { m with clients := cs, ltsymbol := ls } := by
  unfold arrange restack
  simp only [arrangemon, showhide, tile, monocle]
  split
  · split
    · exact ⟨_, _, rfl⟩
    · exact ⟨_, _, rfl⟩
  · split <;> exact ⟨_, _, rfl⟩
  · exact ⟨_, _, rfl⟩

theorem stackops_shape (m : Monitor) (wn : Nat) :
    ∃ st se, attachstack (detachstack m wn) wn
      = { m with stack := st, sel := se } := by
  simp only [detachstack, attachstack]
  split
  · exact ⟨_, _, rfl⟩
  · exact ⟨_, _, rfl⟩

theorem focus_shape (cfg : Cfg) (oc : Option Nat) (m : Monitor) :
    ∃ cs st se, focus cfg oc m = { m with clients := cs, stack := st, sel := se } := by
  simp only [focus]
  cases hc : focusCandidate oc m with
  | none => exact ⟨_, _, _, rfl⟩
  | some c =>
    cases hu : c.isurgent with
    | false =>
      simp only [hu, Bool.false_eq_true, if_false]
      obtain ⟨st, se, h⟩ := stackops_shape m c.win
      rw [h]
      exact ⟨_, _, _, rfl⟩
    | true =>
      simp only [hu, if_true]
      obtain ⟨st, se, h⟩ := stackops_shape { m with clients := updClients m.clients c.win (fun d => { d with isurgent := false }) } c.win
      rw [h]
      exact ⟨_, _, _, rfl⟩

theorem find?_eq_of_map_ckey_eq (wn : Nat) (l1 l2 : List Client)
    (h : l1.map ckey = l2.map ckey) :
    Option.map ckey (l1.find? (fun c => c.win == wn)) =
      Option.map ckey (l2.find? (fun c => c.win == wn)) := by
  induction l1 generalizing l2 with
  | nil =>
    cases l2 with
    | nil => rfl
    | cons c2 t2 => simp at h
  | cons c1 t1 ih =>
    cases l2 with
    | nil => simp at h
    | cons c2 t2 =>
      simp only [List.map_cons, List.cons.injEq] at h
      obtain ⟨hc, ht⟩ := h
      have hw : c1.win = c2.win := congrArg Prod.fst hc
      simp only [List.find?]
      rw [hw]
      cases hb : c2.win == wn with
      | true => simp [hc]
      | false => exact ih t2 ht

theorem findC_win (m : Monitor) (wn : Nat) (c : Client)
    (h : findC m wn = some c) : c.win = wn := by
  have := List.find?_some h
  simpa using this

theorem findC_mem (m : Monitor) (wn : Nat) (c : Client)
    (h : findC m wn = some c) : c ∈ m.clients :=
  List.mem_of_find?_eq_some h

theorem firstVisibleAux (m : Monitor) (c : Client) (st : List Nat)
    (h : st.findSome? (fun wn =>
      match findC m wn with
      | some c => if isvisible m.activeTagset c then some c else none
      | none => none) = some c) :
    findC m c.win = some c ∧ c.win ∈ st ∧
      isvisible m.activeTagset c = true := by
  induction st with
  | nil => simp at h
  | cons wn st ih =>
    rw [List.findSome?_cons] at h
    revert h
    cases hf : findC m wn with
    | none =>
      intro h
      obtain ⟨h1, h2, h3⟩ := ih h
      exact ⟨h1, List.mem_cons_of_mem _ h2, h3⟩
    | some c0 =>
      cases hv : isvisible m.activeTagset c0 with
      | false =>
        intro h
        simp only [hv, Bool.false_eq_true, if_false] at h
        obtain ⟨h1, h2, h3⟩ := ih h
        exact ⟨h1, List.mem_cons_of_mem _ h2, h3⟩
      | true =>
        intro h
        simp only [hv, if_true] at h
        have hc : c0 = c := by simpa using h
        subst hc
        have hw := findC_win m wn c0 hf
        rw [hw]
        exact ⟨hf, List.mem_cons_self .., hv⟩

theorem firstVisible_spec (m : Monitor) (c : Client)
    (h : firstVisible m = some c) :
    findC m c.win = some c ∧ c.win ∈ m.stack ∧
      isvisible m.activeTagset c = true :=
  firstVisibleAux m c m.stack h

theorem focusCandidate_spec (oc : Option Nat) (m : Monitor) (c : Client)
    (h : focusCandidate oc m = some c) :
    findC m c.win = some c ∧ isvisible m.activeTagset c = true := by
  cases oc with
  | none =>
    obtain ⟨h1, _, h3⟩ := firstVisible_spec m c h
    exact ⟨h1, h3⟩
  | some wn =>
    simp only [focusCandidate] at h
    revert h
    cases hf : findC m wn with
    | none =>
      intro h
      obtain ⟨h1, _, h3⟩ := firstVisible_spec m c h
      exact ⟨h1, h3⟩
    | some c0 =>
      cases hv : isvisible m.activeTagset c0 with
      | false =>
        intro h
        simp only [hv, Bool.false_eq_true, if_false] at h
        obtain ⟨h1, _, h3⟩ := firstVisible_spec m c h
        exact ⟨h1, h3⟩
      | true =>
        intro h
        simp only [hv, if_true, Option.some.injEq] at h
        subst h
        rw [findC_win m wn c0 hf]
        exact ⟨hf, hv⟩

theorem find?_updClients_self (l : List Client) (wn : Nat)
    (f : Client → Client) (hf : ∀ d, d.win = wn → (f d).win = wn) :
    (updClients l wn f).find? (fun c => c.win == wn)
      = (l.find? (fun c => c.win == wn)).map f := by
  induction l with
  | nil => rfl
  | cons c t ih =>
    by_cases hw : c.win = wn
    · have hb : (c.win == wn) = true := by simpa using hw
      have hfw : ((f c).win == wn) = true := by simpa using hf c hw
      simp only [updClients, List.map_cons, hb, if_true]
      rw [List.find?_cons_of_pos _ (by simpa using hf c hw),
        List.find?_cons_of_pos _ (by simpa using hw)]
      rfl
    · have hb : (c.win == wn) = false := by simpa using hw
      simp only [updClients, List.map_cons, hb, Bool.false_eq_true, if_false]
      rw [List.find?_cons_of_neg _ (by simpa using hw),
        List.find?_cons_of_neg _ (by simpa using hw)]
      exact ih

theorem find?_updClients_ne (l : List Client) (wn wn' : Nat)
    (f : Client → Client) (hf : ∀ d, d.win = wn → (f d).win = wn)
    (hne : wn' ≠ wn) :
    (updClients l wn f).find? (fun c => c.win == wn')
      = l.find? (fun c => c.win == wn') := by
  have hne' : wn ≠ wn' := Ne.symm hne
  induction l with
  | nil => rfl
  | cons c t ih =>
    by_cases hw : c.win = wn
    · have hb : (c.win == wn) = true := by simpa using hw
      have h1 : ¬ ((f c).win = wn') := by rw [hf c hw]; exact hne'
      have h2 : ¬ (c.win = wn') := by rw [hw]; exact hne'
      simp only [updClients, List.map_cons, hb, if_true]
      rw [List.find?_cons_of_neg _ (by simpa using h1),
        List.find?_cons_of_neg _ (by simpa using h2)]
      exact ih
    · have hb : (c.win == wn) = false := by simpa using hw
      simp only [updClients, List.map_cons, hb, Bool.false_eq_true, if_false]
      by_cases hw' : c.win = wn'
      · rw [List.find?_cons_of_pos _ (by simpa using hw'),
          List.find?_cons_of_pos _ (by simpa using hw')]
      · rw [List.find?_cons_of_neg _ (by simpa using hw'),
          List.find?_cons_of_neg _ (by simpa using hw')]
        exact ih

theorem detachstack_clients (m : Monitor) (wn : Nat) :
    (detachstack m wn).clients = m.clients := by
  simp only [detachstack]
  split <;> rfl

theorem focus_sel_of_candidate (cfg : Cfg) (oc : Option Nat) (m : Monitor)
    (c : Client) (hc : focusCandidate oc m = some c) :
    (focus cfg oc m).sel = some c.win := by
  simp only [focus, hc]

theorem focus_stack_head (cfg : Cfg) (oc : Option Nat) (m : Monitor)
    (c : Client) (hc : focusCandidate oc m = some c) :
    ∃ rest, (focus cfg oc m).stack = c.win :: rest := by
  simp only [focus, hc]
  exact ⟨_, rfl⟩

theorem focus_clients_of_candidate (cfg : Cfg) (oc : Option Nat)
    (m : Monitor) (c : Client) (hc : focusCandidate oc m = some c) :
    (focus cfg oc m).clients =
      if c.isurgent then
        updClients m.clients c.win (fun d => { d with isurgent := false })
      else m.clients := by
  simp only [focus, hc]
  cases hu : c.isurgent with
  | false =>
    simp only [hu, Bool.false_eq_true, if_false]
    rw [show (attachstack (detachstack m c.win) c.win).clients
      = (detachstack m c.win).clients from rfl]
    exact detachstack_clients m c.win
  | true =>
    simp only [hu, if_true]
    rw [show ∀ x : Monitor, (attachstack (detachstack x c.win) c.win).clients
      = (detachstack x c.win).clients from fun x => rfl]
    rw [detachstack_clients]

theorem focus_selInv (cfg : Cfg) (oc : Option Nat) (m : Monitor) :
    SelInv (focus cfg oc m) := by
  intro wn hsel
  cases hc : focusCandidate oc m with
  | none =>
    have : (focus cfg oc m).sel = none := by simp only [focus, hc]
    rw [this] at hsel
    exact absurd hsel (by simp)
  | some c =>
    have hsel' := focus_sel_of_candidate cfg oc m c hc
    rw [hsel'] at hsel
    have hwn : wn = c.win := by simpa using hsel.symm
    subst hwn
    obtain ⟨hfind, hvis⟩ := focusCandidate_spec oc m c hc
    obtain ⟨cs, st, se, hshape⟩ := focus_shape cfg oc m
    constructor
    · obtain ⟨rest, hst⟩ := focus_stack_head cfg oc m c hc
      rw [hst]
      exact List.mem_cons_self ..
    · have hcl := focus_clients_of_candidate cfg oc m c hc
      have hts : (focus cfg oc m).activeTagset = m.activeTagset := by
        rw [hshape]; rfl
      cases hu : c.isurgent with
      | false =>
        refine ⟨c, ?_, ?_⟩
        · show (focus cfg oc m).clients.find? (fun d => d.win == c.win) = some c
          rw [hcl]
          simp only [hu, Bool.false_eq_true, if_false]
          exact hfind
        · rw [hts]; exact hvis
      | true =>
        refine ⟨{ c with isurgent := false }, ?_, ?_⟩
        · show (focus cfg oc m).clients.find? (fun d => d.win == c.win)
            = some { c with isurgent := false }
          rw [hcl]
          simp only [hu, if_true]
          rw [find?_updClients_self m.clients c.win _
            (fun d hd => by simpa using hd)]
          rw [show m.clients.find? (fun d => d.win == c.win) = some c from hfind]
          rfl
        · rw [hts]
          simpa [isvisible] using hvis

theorem tags_all_transfer (l1 l2 : List Client) (P : Nat → Prop)
    (h : l1.map ckey = l2.map ckey) (hall : ∀ c ∈ l1, P c.tags) :
    ∀ c ∈ l2, P c.tags := by
  intro c hc
  have hk : ckey c ∈ l2.map ckey := List.mem_map_of_mem ckey hc
  rw [← h] at hk
  obtain ⟨c1, hc1, hk1⟩ := List.mem_map.1 hk
  have ht : c1.tags = c.tags := congrArg Prod.snd hk1
  rw [← ht]
  exact hall c1 hc1

theorem selInv_transfer (m m' : Monitor)
    (hcl : m'.clients.map ckey = m.clients.map ckey)
    (hst : m'.stack = m.stack) (hse : m'.sel = m.sel)
    (hts : m'.activeTagset = m.activeTagset) :
    SelInv m → SelInv m' := by
  intro hinv wn hsel
  rw [hse] at hsel
  obtain ⟨h1, c, h2, h3⟩ := hinv wn hsel
  refine ⟨hst ▸ h1, ?_⟩
  have := find?_eq_of_map_ckey_eq wn m'.clients m.clients hcl
  rw [show findC m wn = m.clients.find? (fun c => c.win == wn) from rfl] at h2
  rw [h2] at this
  cases hf : m'.clients.find? (fun c => c.win == wn) with
  | none => rw [hf] at this; exact absurd this (by simp)
  | some c' =>
    rw [hf] at this
    have hk : ckey c' = ckey c := by simpa using this
    have ht : c'.tags = c.tags := congrArg Prod.snd hk
    refine ⟨c', hf, ?_⟩
    rw [hts]
    simpa [isvisible, ht] using h3

theorem arrange_selInv (cfg : Cfg) (m : Monitor) (h : SelInv m) :
    SelInv (arrange cfg m) := by
  obtain ⟨cs, ls, hshape⟩ := arrange_shape cfg m
  refine selInv_transfer m (arrange cfg m) (arrange_map_ckey cfg m) ?_ ?_ ?_ h
  · rw [hshape]
  · rw [hshape]
  · rw [hshape]; rfl

theorem tagInv_of_transfer (m m' : Monitor)
    (hcl : m'.clients.map ckey = m.clients.map ckey)
    (h0 : m'.tagset0 = m.tagset0) (h1 : m'.tagset1 = m.tagset1) :
    TagInv m → TagInv m' := by
  intro ⟨a, b, c, d, e⟩
  refine ⟨h0 ▸ a, h1 ▸ b, h0 ▸ c, h1 ▸ d, ?_⟩
  exact tags_all_transfer m.clients m'.clients
    (fun t => t ≠ 0 ∧ t &&& TAGMASK = t) hcl.symm e

theorem arrange_tagInv (cfg : Cfg) (m : Monitor) (h : TagInv m) :
    TagInv (arrange cfg m) := by
  obtain ⟨cs, ls, hshape⟩ := arrange_shape cfg m
  refine tagInv_of_transfer m (arrange cfg m) (arrange_map_ckey cfg m) ?_ ?_ h
  · rw [hshape]
  · rw [hshape]

theorem focus_map_ckey (cfg : Cfg) (oc : Option Nat) (m : Monitor) :
    (focus cfg oc m).clients.map ckey = m.clients.map ckey := by
  cases hc : focusCandidate oc m with
  | none => simp only [focus, hc]
  | some c =>
    rw [focus_clients_of_candidate cfg oc m c hc]
    cases hu : c.isurgent with
    | false => simp
    | true =>
      simp only [if_true]
      exact updClients_map_ckey m.clients c.win _ (fun d => rfl)

theorem focus_tagInv (cfg : Cfg) (oc : Option Nat) (m : Monitor)
    (h : TagInv m) : TagInv (focus cfg oc m) := by
  obtain ⟨cs, st, se, hshape⟩ := focus_shape cfg oc m
  refine tagInv_of_transfer m (focus cfg oc m) (focus_map_ckey cfg oc m) ?_ ?_ h
  · rw [hshape]
  · rw [hshape]

theorem mask_and_self (a : Nat) : (a &&& TAGMASK) &&& TAGMASK = a &&& TAGMASK := by
  rw [Nat.and_assoc, Nat.and_self]

theorem mask_xor_mask (a b : Nat) (ha : a &&& TAGMASK = a)
    (hb : b &&& TAGMASK = b) : (a ^^^ b) &&& TAGMASK = a ^^^ b := by
  rw [Nat.and_xor_distrib_right, ha, hb]

theorem forall_updClients (l : List Client) (wn : Nat) (f : Client → Client)
    (P : Client → Prop) (hall : ∀ c ∈ l, P c) (hf : ∀ c ∈ l, P (f c)) :
    ∀ c ∈ updClients l wn f, P c := by
  intro c hc
  obtain ⟨c0, hc0, hc0e⟩ := List.mem_map.1 hc
  by_cases hb : c0.win == wn
  · rw [if_pos hb] at hc0e
    exact hc0e ▸ hf c0 hc0
  · rw [if_neg hb] at hc0e
    exact hc0e ▸ hall c0 hc0

theorem setActiveTagset_shape (m : Monitor) (v : Nat) :
    ((m.setActiveTagset v).clients = m.clients ∧
      (m.setActiveTagset v).sel = m.sel ∧
      (m.setActiveTagset v).stack = m.stack ∧
      (m.setActiveTagset v).seltags = m.seltags) ∧
    (m.setActiveTagset v).activeTagset = v := by
  unfold Monitor.setActiveTagset Monitor.activeTagset
  cases m.seltags <;> simp

theorem detachstack_shape (m : Monitor) (wn : Nat) :
    ∃ st se, detachstack m wn = { m with stack := st, sel := se } := by
  simp only [detachstack]
  split
  · exact ⟨_, _, rfl⟩
  · exact ⟨_, _, rfl⟩

theorem crStepX_tw (m : Monitor) (ev : CRE) (c : Client) :
    (crStepX m ev c).tags = c.tags ∧ (crStepX m ev c).win = c.win := by
  unfold crStepX; split <;> exact ⟨rfl, rfl⟩

theorem crStepY_tw (m : Monitor) (ev : CRE) (c : Client) :
    (crStepY m ev c).tags = c.tags ∧ (crStepY m ev c).win = c.win := by
  unfold crStepY; split <;> exact ⟨rfl, rfl⟩

theorem crStepW_tw (ev : CRE) (c : Client) :
    (crStepW ev c).tags = c.tags ∧ (crStepW ev c).win = c.win := by
  unfold crStepW; split <;> exact ⟨rfl, rfl⟩

theorem crStepH_tw (ev : CRE) (c : Client) :
    (crStepH ev c).tags = c.tags ∧ (crStepH ev c).win = c.win := by
  unfold crStepH; split <;> exact ⟨rfl, rfl⟩

theorem crStepCX_tw (m : Monitor) (c : Client) :
    (crStepCX m c).tags = c.tags ∧ (crStepCX m c).win = c.win := by
  unfold crStepCX; split <;> exact ⟨rfl, rfl⟩

theorem crStepCY_tw (m : Monitor) (c : Client) :
    (crStepCY m c).tags = c.tags ∧ (crStepCY m c).win = c.win := by
  unfold crStepCY; split <;> exact ⟨rfl, rfl⟩

theorem crFloatClient_tags (m : Monitor) (ev : CRE) (c : Client) :
    (crFloatClient m ev c).tags = c.tags := by
  unfold crFloatClient
  rw [(crStepCY_tw ..).1, (crStepCX_tw ..).1, (crStepH_tw ..).1,
    (crStepW_tw ..).1, (crStepY_tw ..).1, (crStepX_tw ..).1]

theorem crFloatClient_win (m : Monitor) (ev : CRE) (c : Client) :
    (crFloatClient m ev c).win = c.win := by
  unfold crFloatClient
  rw [(crStepCY_tw ..).2, (crStepCX_tw ..).2, (crStepH_tw ..).2,
    (crStepW_tw ..).2, (crStepY_tw ..).2, (crStepX_tw ..).2]

theorem mgClamp_tags (cfg : Cfg) (m : Monitor) (c : Client) :
    (mgClamp cfg m c).tags = c.tags := by
  simp only [mgClamp]
  split <;> split <;> rfl

theorem mgClamp_win (cfg : Cfg) (m : Monitor) (c : Client) :
    (mgClamp cfg m c).win = c.win := by
  simp only [mgClamp]
  split <;> split <;> rfl

theorem mgFlags_tw (cfg : Cfg) (trans : Bool) (c : Client) :
    (mgFlags cfg trans c).tags = c.tags ∧ (mgFlags cfg trans c).win = c.win := by
  simp only [mgFlags]
  split <;> exact ⟨rfl, rfl⟩

theorem manageClient_win (cfg : Cfg) (m : Monitor) (wn : Nat)
    (wax way waw wah waobw : Int) (transientOf : Option Nat)
    (rtags : Nat) (rfloat : Bool) (pc : Client) :
    (manageClient cfg m wn wax way waw wah waobw transientOf rtags rfloat pc).win
      = wn := by
  unfold manageClient
  rw [(mgFlags_tw ..).2, mgClamp_win]
  unfold mgTags
  split <;> rfl

theorem manageClient_tags (cfg : Cfg) (m : Monitor) (wn : Nat)
    (wax way waw wah waobw : Int) (transientOf : Option Nat)
    (rtags : Nat) (rfloat : Bool) (pc : Client) :
    (manageClient cfg m wn wax way waw wah waobw transientOf rtags rfloat pc).tags
      = (match transientOf.bind (findC m) with
         | some t => t.tags
         | none => applyrulesTags m rtags) := by
  unfold manageClient
  rw [(mgFlags_tw ..).1, mgClamp_tags]
  unfold mgTags
  split <;> rfl

theorem tagInv_setActiveTagset (m : Monitor) (v : Nat) (hv : v ≠ 0)
    (hm : v &&& TAGMASK = v) (h : TagInv m) :
    TagInv (m.setActiveTagset v) := by
  obtain ⟨a, b, c, d, e⟩ := h
  unfold Monitor.setActiveTagset
  cases m.seltags <;> exact ⟨by simp_all, by simp_all, by simp_all, by simp_all, e⟩

theorem activeTagset_good (m : Monitor) (h : TagInv m) :
    m.activeTagset ≠ 0 ∧ m.activeTagset &&& TAGMASK = m.activeTagset := by
  obtain ⟨a, b, c, d, _⟩ := h
  unfold Monitor.activeTagset
  cases m.seltags <;> simp_all

theorem selInv_updClients_keyfix (m : Monitor) (wn : Nat)
    (f : Client → Client) (hf : ∀ d, ckey (f d) = ckey d) (h : SelInv m) :
    SelInv { m with clients := updClients m.clients wn f } := by
  refine selInv_transfer m _ ?_ rfl rfl rfl h
  exact updClients_map_ckey m.clients wn f hf

theorem tagInv_clients_cons (m : Monitor) (c : Client) (hc : c.tags ≠ 0 ∧ c.tags &&& TAGMASK = c.tags) (h : TagInv m) :
    TagInv { m with clients := c :: m.clients } := by
  obtain ⟨a, b, d, e, f⟩ := h
  refine ⟨a, b, d, e, ?_⟩
  intro c' hc'
  rcases List.mem_cons.1 hc' with h1 | h1
  · exact h1 ▸ hc
  · exact f c' h1

theorem tagInv_clients_sub (m : Monitor) (cs : List Client)
    (hsub : ∀ c ∈ cs, c ∈ m.clients) (h : TagInv m) :
    TagInv { m with clients := cs } := by
  obtain ⟨a, b, d, e, f⟩ := h
  exact ⟨a, b, d, e, fun c hc => f c (hsub c hc)⟩

theorem tagInv_updClients (m : Monitor) (wn : Nat) (f : Client → Client)
    (hf : ∀ c ∈ m.clients, (f c).tags ≠ 0 ∧ (f c).tags &&& TAGMASK = (f c).tags)
    (h : TagInv m) : TagInv { m with clients := updClients m.clients wn f } := by
  obtain ⟨a, b, d, e, g⟩ := h
  exact ⟨a, b, d, e, forall_updClients m.clients wn f _ g hf⟩

theorem selInv_updClients_const (m : Monitor) (wn : Nat) (c c2 : Client)
    (hfind : findC m wn = some c) (hwin : c2.win = wn)
    (htags : c2.tags = c.tags) (h : SelInv m) :
    SelInv { m with clients := updClients m.clients wn (fun _ => c2) } := by
  intro wn0 hsel
  obtain ⟨h1, c', h2, h3⟩ := h wn0 hsel
  refine ⟨h1, ?_⟩
  by_cases he : wn0 = wn
  · subst he
    have hc' : c' = c := by
      rw [hfind] at h2; exact (Option.some.inj h2).symm
    subst hc'
    refine ⟨c2, ?_, ?_⟩
    · show (updClients m.clients wn0 (fun _ => c2)).find?
        (fun d => d.win == wn0) = some c2
      rw [find?_updClients_self m.clients wn0 _ (fun d _ => hwin)]
      rw [show m.clients.find? (fun d => d.win == wn0) = some c' from h2]
      rfl
    · simpa [isvisible, htags] using h3
  · refine ⟨c', ?_, h3⟩
    show (updClients m.clients wn (fun _ => c2)).find?
      (fun d => d.win == wn0) = some c'
    rw [find?_updClients_ne m.clients wn wn0 _ (fun d _ => hwin) he]
    exact h2

theorem view_tagInv (cfg : Cfg) (ui : Nat) (m : Monitor) (h : TagInv m) :
    TagInv (view cfg ui m) := by
  simp only [view]
  split
  · exact h
  · apply arrange_tagInv
    apply focus_tagInv
    have hflip : TagInv { m with seltags := !m.seltags } := h
    split
    · exact tagInv_setActiveTagset _ _ (by assumption) (mask_and_self ui) hflip
    · exact hflip

theorem view_selInv (cfg : Cfg) (ui : Nat) (m : Monitor) (h : SelInv m) :
    SelInv (view cfg ui m) := by
  simp only [view]
  split
  · exact h
  · exact arrange_selInv cfg _ (focus_selInv cfg none _)

theorem toggleview_tagInv (cfg : Cfg) (ui : Nat) (m : Monitor)
    (h : TagInv m) : TagInv (toggleview cfg ui m) := by
  simp only [toggleview]
  split
  · apply arrange_tagInv
    apply focus_tagInv
    exact tagInv_setActiveTagset _ _ (by assumption)
      (mask_xor_mask _ _ (activeTagset_good m h).2 (mask_and_self ui)) h
  · exact h

theorem toggleview_selInv (cfg : Cfg) (ui : Nat) (m : Monitor)
    (h : SelInv m) : SelInv (toggleview cfg ui m) := by
  simp only [toggleview]
  split
  · exact arrange_selInv cfg _ (focus_selInv cfg none _)
  · exact h

theorem tag_tagInv (cfg : Cfg) (ui : Nat) (m : Monitor) (h : TagInv m) :
    TagInv (tag cfg ui m) := by
  simp only [tag]
  split
  · split
    · apply arrange_tagInv
      apply focus_tagInv
      exact tagInv_updClients m _ _
        (fun c _ => ⟨by assumption, mask_and_self ui⟩) h
    · exact h
  · exact h

theorem tag_selInv (cfg : Cfg) (ui : Nat) (m : Monitor) (h : SelInv m) :
    SelInv (tag cfg ui m) := by
  simp only [tag]
  split
  · split
    · exact arrange_selInv cfg _ (focus_selInv cfg none _)
    · exact h
  · exact h

theorem toggletag_tagInv (cfg : Cfg) (ui : Nat) (m : Monitor)
    (h : TagInv m) : TagInv (toggletag cfg ui m) := by
  cases hsel : m.sel with
  | none => simp only [toggletag, hsel]; exact h
  | some wn =>
    cases hfc : findC m wn with
    | none => simp only [toggletag, hsel, hfc]; exact h
    | some c =>
      simp only [toggletag, hsel, hfc]
      split
      · apply arrange_tagInv
        apply focus_tagInv
        refine tagInv_updClients m _ _ (fun d _ => ⟨by assumption, ?_⟩) h
        exact mask_xor_mask _ _
          ((h.2.2.2.2 c (findC_mem m wn c hfc)).2) (mask_and_self ui)
      · exact h

theorem toggletag_selInv (cfg : Cfg) (ui : Nat) (m : Monitor)
    (h : SelInv m) : SelInv (toggletag cfg ui m) := by
  simp only [toggletag]
  split
  · split
    · split
      · exact arrange_selInv cfg _ (focus_selInv cfg none _)
      · exact h
    · exact h
  · exact h

theorem pop_tagInv (cfg : Cfg) (m : Monitor) (wn : Nat) (h : TagInv m) :
    TagInv (pop cfg m wn) := by
  simp only [pop]
  split
  · exact h
  · rename_i c hc
    apply arrange_tagInv
    apply focus_tagInv
    refine tagInv_clients_cons _ c (h.2.2.2.2 c (findC_mem m wn c hc)) ?_
    exact tagInv_clients_sub m _
      (fun d hd => (List.eraseP_sublist m.clients).subset hd) h

theorem pop_selInv (cfg : Cfg) (m : Monitor) (wn : Nat) (h : SelInv m) :
    SelInv (pop cfg m wn) := by
  simp only [pop]
  split
  · exact h
  · exact arrange_selInv cfg _ (focus_selInv cfg _ _)

theorem zoom_tagInv (cfg : Cfg) (m : Monitor) (h : TagInv m) :
    TagInv (zoom cfg m) := by
  simp only [zoom]
  split
  · exact h
  · split
    · split
      · exact h
      · split
        · exact h
        · exact pop_tagInv cfg m _ h
    · split
      · exact pop_tagInv cfg m _ h
      · exact h

theorem zoom_selInv (cfg : Cfg) (m : Monitor) (h : SelInv m) :
    SelInv (zoom cfg m) := by
  simp only [zoom]
  split
  · exact h
  · split
    · split
      · exact h
      · split
        · exact h
        · exact pop_selInv cfg m _ h
    · split
      · exact pop_selInv cfg m _ h
      · exact h

theorem setfullscreen_tagInv (cfg : Cfg) (m : Monitor) (wn : Nat)
    (full : Bool) (h : TagInv m) : TagInv (setfullscreen cfg m wn full) := by
  simp only [setfullscreen]
  split
  · exact h
  · rename_i c hc
    have hcg := h.2.2.2.2 c (findC_mem m wn c hc)
    split
    · exact tagInv_updClients m _ _ (fun d _ => hcg) h
    · split
      · exact arrange_tagInv cfg _
          (tagInv_updClients m _ _ (fun d _ => hcg) h)
      · exact h

theorem setfullscreen_selInv (cfg : Cfg) (m : Monitor) (wn : Nat)
    (full : Bool) (h : SelInv m) : SelInv (setfullscreen cfg m wn full) := by
  simp only [setfullscreen]
  split
  · exact h
  · rename_i c hc
    have hwin := findC_win m wn c hc
    split
    · exact selInv_updClients_const m wn c _ hc hwin rfl h
    · split
      · exact arrange_selInv cfg _
          (selInv_updClients_const m wn c _ hc hwin rfl h)
      · exact h

theorem configurerequest_tagInv (cfg : Cfg) (m : Monitor) (wn : Nat)
    (ev : CRE) (h : TagInv m) : TagInv (configurerequest cfg m wn ev) := by
  simp only [configurerequest]
  split
  · exact h
  · rename_i c hc
    split
    · exact tagInv_updClients m _ _ (fun d hd => h.2.2.2.2 d hd) h
    · split
      · refine tagInv_updClients m _ _ (fun d _ => ?_) h
        rw [crFloatClient_tags]
        exact h.2.2.2.2 c (findC_mem m wn c hc)
      · exact h

theorem configurerequest_selInv (cfg : Cfg) (m : Monitor) (wn : Nat)
    (ev : CRE) (h : SelInv m) : SelInv (configurerequest cfg m wn ev) := by
  simp only [configurerequest]
  split
  · exact h
  · rename_i c hc
    split
    · exact selInv_updClients_keyfix m wn _ (fun d => rfl) h
    · split
      · exact selInv_updClients_const m wn c _ hc
          ((crFloatClient_win m ev c).trans (findC_win m wn c hc))
          (crFloatClient_tags m ev c) h
      · exact h

theorem manage_tagInv (cfg : Cfg) (m : Monitor) (wn : Nat)
    (wax way waw wah waobw : Int) (transientOf : Option Nat)
    (rtags : Nat) (rfloat : Bool) (pc : Client) (h : TagInv m) :
    TagInv (manage cfg m wn wax way waw wah waobw transientOf rtags rfloat pc) := by
  simp only [manage]
  apply focus_tagInv
  apply arrange_tagInv
  refine tagInv_clients_cons { m with stack := _, sel := _ } _ ?_ h
  rw [manageClient_tags]
  cases hb : transientOf.bind (findC m) with
  | none =>
    simp only
    unfold applyrulesTags
    split
    · exact ⟨by assumption, mask_and_self rtags⟩
    · exact activeTagset_good m h
  | some t =>
    simp only
    have ht : t ∈ m.clients := by
      cases hto : transientOf with
      | none => rw [hto] at hb; simp at hb
      | some tw =>
        rw [hto] at hb
        simp only [Option.some_bind] at hb
        exact findC_mem m tw t hb
    exact h.2.2.2.2 t ht

theorem manage_selInv (cfg : Cfg) (m : Monitor) (wn : Nat)
    (wax way waw wah waobw : Int) (transientOf : Option Nat)
    (rtags : Nat) (rfloat : Bool) (pc : Client) :
    SelInv (manage cfg m wn wax way waw wah waobw transientOf rtags rfloat pc) := by
  simp only [manage]
  exact focus_selInv cfg none _

theorem unmanage_tagInv (cfg : Cfg) (m : Monitor) (wn : Nat)
    (h : TagInv m) : TagInv (unmanage cfg m wn) := by
  unfold unmanage
  apply arrange_tagInv
  apply focus_tagInv
  obtain ⟨st, se, hsh⟩ := detachstack_shape (detach m wn) wn
  rw [hsh]
  have : TagInv (detach m wn) := by
    exact tagInv_clients_sub m _
      (fun d hd => (List.eraseP_sublist m.clients).subset hd) h
  exact this

theorem unmanage_selInv (cfg : Cfg) (m : Monitor) (wn : Nat) :
    SelInv (unmanage cfg m wn) := by
  unfold unmanage
  exact arrange_selInv cfg _ (focus_selInv cfg none _)

theorem init_tagInv (mx my mw mh wx wy ww wh mby : Int) :
    TagInv (initMonitor mx my mw mh wx wy ww wh mby) := by
  refine ⟨one_ne_zero, one_ne_zero,
    (by decide : (1 : Nat) &&& TAGMASK = 1),
    (by decide : (1 : Nat) &&& TAGMASK = 1), ?_⟩
  intro c hc
  exact absurd hc (List.not_mem_nil c)

theorem init_selInv (mx my mw mh wx wy ww wh mby : Int) :
    SelInv (initMonitor mx my mw mh wx wy ww wh mby) := by
  intro wn hsel
  exact absurd hsel (by simp [initMonitor])

theorem reach_tagInv (cfg : Cfg) (m : Monitor) (h : Reach cfg m) :
    TagInv m := by
  induction h with
  | init mx my mw mh wx wy ww wh mby => exact init_tagInv mx my mw mh wx wy ww wh mby
  | stepManage _ wn wax way waw wah waobw transientOf rtags rfloat pc ih =>
    exact manage_tagInv cfg _ wn wax way waw wah waobw transientOf rtags rfloat pc ih
  | stepUnmanage _ wn ih => exact unmanage_tagInv cfg _ wn ih
  | stepFocus _ oc ih => exact focus_tagInv cfg oc _ ih
  | stepView _ ui ih => exact view_tagInv cfg ui _ ih
  | stepToggleview _ ui ih => exact toggleview_tagInv cfg ui _ ih
  | stepTag _ ui ih => exact tag_tagInv cfg ui _ ih
  | stepToggletag _ ui ih => exact toggletag_tagInv cfg ui _ ih
  | stepZoom _ ih => exact zoom_tagInv cfg _ ih
  | stepSetfullscreen _ wn full ih => exact setfullscreen_tagInv cfg _ wn full ih
  | stepConfigurerequest _ wn ev ih => exact configurerequest_tagInv cfg _ wn ev ih
  | stepArrange _ ih => exact arrange_tagInv cfg _ ih

instance (m : Monitor) (c : Client) : Decidable (FsClientInv m c) := by
  unfold FsClientInv
  infer_instance

instance (m : Monitor) : Decidable (FsInv m) := by
  unfold FsInv
  infer_instance

theorem arrange_tagsets (cfg : Cfg) (m : Monitor) :
    (arrange cfg m).tagset0 = m.tagset0 ∧ (arrange cfg m).tagset1 = m.tagset1 ∧
    (arrange cfg m).seltags = m.seltags ∧
    (arrange cfg m).activeTagset = m.activeTagset := by
  obtain ⟨cs, ls, h⟩ := arrange_shape cfg m
  rw [h]
  exact ⟨rfl, rfl, rfl, rfl⟩

theorem focus_tagsets (cfg : Cfg) (oc : Option Nat) (m : Monitor) :
    (focus cfg oc m).tagset0 = m.tagset0 ∧ (focus cfg oc m).tagset1 = m.tagset1 ∧
    (focus cfg oc m).seltags = m.seltags ∧
    (focus cfg oc m).activeTagset = m.activeTagset := by
  obtain ⟨cs, st, se, h⟩ := focus_shape cfg oc m
  rw [h]
  exact ⟨rfl, rfl, rfl, rfl⟩

theorem reach_selInv (cfg : Cfg) (m : Monitor) (h : Reach cfg m) :
    SelInv m := by
  induction h with
  | init mx my mw mh wx wy ww wh mby => exact init_selInv mx my mw mh wx wy ww wh mby
  | stepManage _ wn wax way waw wah waobw transientOf rtags rfloat pc ih =>
    exact manage_selInv cfg _ wn wax way waw wah waobw transientOf rtags rfloat pc
  | stepUnmanage _ wn ih => exact unmanage_selInv cfg _ wn
  | stepFocus _ oc ih => exact focus_selInv cfg oc _
  | stepView _ ui ih => exact view_selInv cfg ui _ ih
  | stepToggleview _ ui ih => exact toggleview_selInv cfg ui _ ih
  | stepTag _ ui ih => exact tag_selInv cfg ui _ ih
  | stepToggletag _ ui ih => exact toggletag_selInv cfg ui _ ih
  | stepZoom _ ih => exact zoom_selInv cfg _ ih
  | stepSetfullscreen _ wn full ih => exact setfullscreen_selInv cfg _ wn full ih
  | stepConfigurerequest _ wn ev ih => exact configurerequest_selInv cfg _ wn ev ih
  | stepArrange _ ih => exact arrange_selInv cfg _ ih

/-- C1: in every reachable state the active tagset is nonzero and every
client's TAGMASK-restricted tag mask is nonzero; `toggleview`, `tag` and
`toggletag` refuse changes whose result would be empty (leaving the state
unchanged), and `view` with an empty mask leaves every tagset slot and
every client's tags unchanged. -/
theorem claim_C1_tag_invariant (cfg : Cfg) :
    (∀ m, Reach cfg m →
      m.activeTagset ≠ 0 ∧ ∀ c ∈ m.clients, c.tags &&& TAGMASK ≠ 0) ∧
    (∀ m ui, m.activeTagset ^^^ (ui &&& TAGMASK) = 0 →
      toggleview cfg ui m = m) ∧
    (∀ m ui, ui &&& TAGMASK = 0 → tag cfg ui m = m) ∧
    (∀ m wn c ui, m.sel = some wn → findC m wn = some c →
      c.tags ^^^ (ui &&& TAGMASK) = 0 → toggletag cfg ui m = m) ∧
    (∀ m ui, ui &&& TAGMASK = 0 →
      (view cfg ui m).tagset0 = m.tagset0 ∧
      (view cfg ui m).tagset1 = m.tagset1 ∧
      (view cfg ui m).clients.map ckey = m.clients.map ckey) := by
  refine ⟨?_, ?_, ?_, ?_, ?_⟩
  · intro m hm
    have h := reach_tagInv cfg m hm
    refine ⟨(activeTagset_good m h).1, ?_⟩
    intro c hc
    have := h.2.2.2.2 c hc
    rw [this.2]
    exact this.1
  · intro m ui h
    simp only [toggleview]
    rw [if_neg (by simpa using h)]
  · intro m ui h
    simp only [tag]
    cases m.sel with
    | none => rfl
    | some wn =>
      dsimp only
      rw [if_neg (fun hne => hne h)]
  · intro m wn c ui hsel hfc h
    simp only [toggletag, hsel, hfc]
    rw [if_neg (by simpa using h)]
  · intro m ui h
    simp only [view]
    split
    · exact ⟨rfl, rfl, rfl⟩
    · rw [if_neg (by simp [h])]
      refine ⟨?_, ?_, ?_⟩
      · rw [(arrange_tagsets ..).1, (focus_tagsets ..).1]
      · rw [(arrange_tagsets ..).2.1, (focus_tagsets ..).2.1]
      · rw [arrange_map_ckey, focus_map_ckey]

theorem claim_C1_tag_invariant_witness :
    ((initMonitor 0 0 800 600 0 0 800 583 0).activeTagset ≠ 0 ∧
      ∀ c ∈ (initMonitor 0 0 800 600 0 0 800 583 0).clients,
        c.tags &&& TAGMASK ≠ 0) ∧
    toggleview { bh := 17 } 1 (initMonitor 0 0 800 600 0 0 800 583 0)
      = initMonitor 0 0 800 600 0 0 800 583 0 :=
  ⟨(claim_C1_tag_invariant { bh := 17 }).1 _ (Reach.init 0 0 800 600 0 0 800 583 0),
   (claim_C1_tag_invariant { bh := 17 }).2.1 _ 1 (by decide)⟩

/-- C7: for a mask whose TAGMASK-restriction is nonzero, a second `view`
with the same mask changes nothing: the applied mask already equals the
active tagset, so the second call returns early. -/
theorem claim_C7_view_idempotent (cfg : Cfg) (ui : Nat) (m : Monitor)
    (h : ui &&& TAGMASK ≠ 0) :
    view cfg ui (view cfg ui m) = view cfg ui m := by
  by_cases h0 : (ui &&& TAGMASK == m.activeTagset) = true
  · have h1 : view cfg ui m = m := by
      simp only [view]
      rw [if_pos h0]
    rw [h1]
    simp only [view]
    rw [if_pos h0]
  · have hts : (view cfg ui m).activeTagset = ui &&& TAGMASK := by
      simp only [view]
      rw [if_neg h0, (arrange_tagsets ..).2.2.2, (focus_tagsets ..).2.2.2,
        if_pos h]
      exact (setActiveTagset_shape _ _).2
    have hcond : (ui &&& TAGMASK == (view cfg ui m).activeTagset) = true := by
      rw [hts]
      simp
    conv_lhs => rw [view]
    rw [if_pos hcond]

theorem claim_C7_view_idempotent_witness :
    view { bh := 17 } 2 (view { bh := 17 } 2 (initMonitor 0 0 800 600 0 0 800 583 0))
      = view { bh := 17 } 2 (initMonitor 0 0 800 600 0 0 800 583 0) :=
  claim_C7_view_idempotent { bh := 17 } 2 _ (by decide)

/-- C8: in every reachable state the selected client, when present, is a
member of the focus stack and visible; and `detachstack` of the selected
client re-selects the first visible client remaining in the stack. -/
theorem claim_C8_sel_invariant (cfg : Cfg) :
    (∀ m, Reach cfg m → ∀ wn, m.sel = some wn →
      wn ∈ m.stack ∧
        ∃ c, findC m wn = some c ∧ isvisible m.activeTagset c = true) ∧
    (∀ m wn, m.sel = some wn →
      (detachstack m wn).sel
        = (firstVisible { m with stack := m.stack.erase wn }).map (·.win)) := by
  constructor
  · intro m hm
    exact reach_selInv cfg m hm
  · intro m wn hsel
    simp only [detachstack]
    rw [if_pos (by simp [hsel])]

/-- Concrete monitor for the C8 witness: one freshly managed client. -/
def c8mon : Monitor :=
  manage { bh := 17, sw := 800, sh := 600 } (initMonitor 0 0 800 600 0 0 800 583 0)
    5 10 10 100 100 2 none 0 false {}

theorem claim_C8_sel_invariant_witness :
    (5 ∈ c8mon.stack ∧
      ∃ c, findC c8mon 5 = some c ∧ isvisible c8mon.activeTagset c = true) ∧
    (detachstack c8mon 5).sel
      = (firstVisible { c8mon with stack := c8mon.stack.erase 5 }).map (·.win) :=
  ⟨by
    have h := (claim_C8_sel_invariant { bh := 17, sw := 800, sh := 600 }).1 c8mon
      (Reach.stepManage (Reach.init 0 0 800 600 0 0 800 583 0)
        5 10 10 100 100 2 none 0 false {}) 5 (by decide)
    exact h,
   (claim_C8_sel_invariant { bh := 17, sw := 800, sh := 600 }).2 c8mon 5 (by decide)⟩

/-- C10: `zoom` is a no-op when the active layout is floating (no arrange
function) or the selected client is floating: the whole monitor state —
client list, focus stack, geometries — is returned unchanged. -/
theorem claim_C10_zoom_noop (cfg : Cfg) (m : Monitor)
    (h : (m.activeLayout).hasArrange = false ∨
      ∃ wn c, m.sel = some wn ∧ findC m wn = some c ∧ c.isfloating = true) :
    zoom cfg m = m := by
  rcases h with h | ⟨wn, c, hsel, hfc, hfl⟩
  · simp [zoom, h]
  · simp [zoom, hsel, hfc, hfl]

theorem claim_C10_zoom_noop_witness :
    zoom { bh := 17 } { initMonitor 0 0 800 600 0 0 800 583 0 with sellt := true }
      = { initMonitor 0 0 800 600 0 0 800 583 0 with sellt := true } :=
  claim_C10_zoom_noop { bh := 17 } _ (Or.inl (by decide))

/-- Configuration and monitor of the C2 boundary scenario: usable area
1600 by 1000 at the origin, `mfact = 0.55`, `nmaster = 1`, four tiled
clients with border width 1 and no size hints. -/
def c2cfg : Cfg := { bh := 17, sw := 1600, sh := 1000 }

def c2client (wn : Nat) : Client := { win := wn, tags := 1, bw := 1 }

def c2mon : Monitor :=
  { initMonitor 0 0 1600 1000 0 0 1600 1000 0 with
    clients := [c2client 1, c2client 2, c2client 3, c2client 4]
    stack := [1, 2, 3, 4]
    sel := some 1 }

/-- C2: in the tile layout on a 1600 by 1000 area with `mfact = 0.55` and
`nmaster = 1`, the first of four hintless tiled clients is placed at
`(0, 0)` with width `880 - 2 bw` and height `1000 - 2 bw`, and the other
three fill the right strip with border-inclusive heights 333, 333, 334
from top to bottom. -/
theorem claim_C2_tile_seed :
    ((tile c2cfg c2mon).clients.map fun c => (c.x, c.y, c.w, c.h))
      = [(0, 0, 880 - 2 * 1, 1000 - 2 * 1), (880, 0, 718, 331),
         (880, 333, 718, 331), (880, 666, 718, 332)] ∧
    ((tile c2cfg c2mon).clients.drop 1).map HEIGHT = [333, 333, 334] := by
  constructor
  · decide
  · decide

/-- Client and monitor of the C6 boundary scenario: increment hints
80 and 16, base 0, minimum 80 by 16, no maximum or aspect hints. -/
def c6client : Client :=
  { win := 9, tags := 1, bw := 1, isfloating := true
    incw := 80, inch := 16, minw := 80, minh := 16
    x := 0, y := 0, w := 100, h := 100 }

def c6mon : Monitor := initMonitor 0 0 1920 1080 0 0 1920 1063 0

/-- C6: a mouse resize (`interact` set) proposing 837 by 409 on a client
with increment hints 80 and 16, base 0 and minimum 80 by 16 floors the
size to 800 by 400. -/
theorem claim_C6_increment_resize :
    (fun c => (c.x, c.y, c.w, c.h))
      (resize { bh := 17, sw := 1920, sh := 1080 } c6mon c6client
        ⟨0, 0, 837, 409⟩ true)
      = (0, 0, 800, 400) := by
  decide

/-- Outcome of the command-line prefix of `main`. -/
inductive CliOutcome where
  | exitWith (code : Nat) (msg : String)
  | runWM
deriving DecidableEq, Repr

/-- Version message printed for `-v` (`die("dwm-"VERSION)`). -/
def versionMsg : String := "dwm-VERSION"

/-- Usage message printed for any other argument (`die("usage: dwm [-v]")`). -/
def usageMsg : String := "usage: dwm [-v]"

/-- Modelled from the spec: the exit path of `main` goes through `die` of
util.c, which is not under src/; the spec fixes the exit codes — 0 for
`-v` (print version and exit) and nonzero (modelled as 1) for the usage
message printed to stderr on any other argument.  The argument tests are
those of `main` in dwm.c: `argc == 2 && !strcmp("-v", argv[1])`, then
`argc != 1`. -/
def mainCli (argv : List String) : CliOutcome :=
  if argv.length = 2 ∧ argv.get? 1 = some "-v" then .exitWith 0 versionMsg
  else if argv.length ≠ 1 then .exitWith 1 usageMsg
  else .runWM

/-- C9: `-v` as the single argument prints the version and exits 0; any
other nonempty argument list prints the usage message and exits with a
nonzero status. -/
theorem claim_C9_cli (p : String) :
    mainCli [p, "-v"] = .exitWith 0 versionMsg ∧
    (∀ args : List String, args ≠ [] → args ≠ ["-v"] →
      ∃ code, mainCli (p :: args) = .exitWith code usageMsg ∧ code ≠ 0) := by
  constructor
  · simp [mainCli]
  · intro args h1 h2
    refine ⟨1, ?_, one_ne_zero⟩
    cases args with
    | nil => exact absurd rfl h1
    | cons a rest =>
      cases rest with
      | nil =>
        have ha : a ≠ "-v" := fun h => h2 (by rw [h])
        simp [mainCli, ha]
      | cons b rest2 =>
        simp [mainCli, Nat.succ_ne_zero]

theorem claim_C9_cli_witness :
    mainCli ["dwm", "-v"] = .exitWith 0 versionMsg ∧
    ∃ code, mainCli ["dwm", "-x"] = .exitWith code usageMsg ∧ code ≠ 0 :=
  ⟨(claim_C9_cli "dwm").1,
   (claim_C9_cli "dwm").2 ["-x"] (by decide) (by decide)⟩

theorem showhideClient_fs (cfg : Cfg) (m : Monitor) (c : Client)
    (h : c.isfullscreen = true) : showhideClient cfg m c = c := by
  unfold showhideClient
  split
  · rw [if_neg (by simp [h])]
  · rfl

theorem showhideClient_isfullscreen (cfg : Cfg) (m : Monitor) (c : Client) :
    (showhideClient cfg m c).isfullscreen = c.isfullscreen := by
  unfold showhideClient
  split
  · split
    · rw [resize_isfullscreen]
    · rfl
  · rfl

theorem fsClientInv_elem (m : Monitor) (g : Client → Client)
    (hfs : ∀ c, (g c).isfullscreen = c.isfullscreen)
    (hfix : ∀ c, c.isfullscreen = true → c.isfloating = true → g c = c) :
    ∀ c, FsClientInv m c → FsClientInv m (g c) := by
  intro c hc h
  have hc' : c.isfullscreen = true := by rw [← hfs c]; exact h
  rw [hfix c hc' (hc hc').1]
  exact hc hc'

theorem foldl_updClients_all (P : Client → Prop) (f : Client → Client)
    (hf : ∀ c, P c → P (f c)) :
    ∀ (st : List Nat) (cs : List Client), (∀ c ∈ cs, P c) →
      ∀ c ∈ st.foldl (fun cs u => updClients cs u f) cs, P c := by
  intro st
  induction st with
  | nil => intro cs h; exact h
  | cons u st ih =>
    intro cs h
    simp only [List.foldl_cons]
    exact ih (updClients cs u f)
      (forall_updClients cs u f P h (fun c hc => hf c (h c hc)))

theorem tileLoop_fsInv (cfg : Cfg) (mctx : Monitor) (m : Monitor)
    (ts mwN n : Nat) :
    ∀ (i my ty : Nat) (l : List Client), (∀ c ∈ l, FsClientInv m c) →
      ∀ c' ∈ tileLoop cfg mctx ts mwN n i my ty l, FsClientInv m c' := by
  intro i my ty l
  induction l generalizing i my ty with
  | nil => intro _ c' hc'; simp [tileLoop] at hc'
  | cons c cs ih =>
    intro hall c' hc'
    have hhead := hall c (List.mem_cons_self ..)
    have htail : ∀ d ∈ cs, FsClientInv m d :=
      fun d hd => hall d (List.mem_cons_of_mem _ hd)
    simp only [tileLoop] at hc'
    revert hc'
    split
    · rename_i htiled
      have hnotfloat : c.isfloating = false := by
        rw [tiledB, Bool.and_eq_true] at htiled
        simpa using htiled.1
      split <;>
      · intro hc'
        rcases List.mem_cons.1 hc' with h1 | h1
        · subst h1
          intro hfs
          rw [resize_isfullscreen] at hfs
          exact absurd (hhead hfs).1 (by simp [hnotfloat])
        · exact ih _ _ _ htail _ h1
    · intro hc'
      rcases List.mem_cons.1 hc' with h1 | h1
      · exact h1 ▸ hhead
      · exact ih _ _ _ htail _ h1

theorem arrange_fsInv_core (cfg : Cfg) (m0 m : Monitor)
    (h : ∀ c ∈ m.clients, FsClientInv m0 c) :
    ∀ c ∈ (arrange cfg m).clients, FsClientInv m0 c := by
  unfold arrange restack
  have hsh : ∀ c ∈ (showhide cfg m).clients, FsClientInv m0 c := by
    simp only [showhide]
    exact foldl_updClients_all _ _
      (fsClientInv_elem m0 _ (showhideClient_isfullscreen cfg m)
        (fun c hc _ => showhideClient_fs cfg m c hc))
      m.stack m.clients h
  set m1 := showhide cfg m with hm1
  simp only [arrangemon]
  split
  · -- tile
    simp only [tile]
    split
    · exact hsh
    · exact tileLoop_fsInv cfg _ m0 _ _ _ 0 0 0 _ hsh
  · -- monocle
    simp only [monocle]
    split <;>
    · intro c' hc'
      obtain ⟨c, hc, he⟩ := List.mem_map.1 hc'
      revert he
      split
      · rename_i htiled
        intro he
        subst he
        intro hfs
        rw [resize_isfullscreen] at hfs
        have hnotfloat : c.isfloating = false := by
          rw [tiledB, Bool.and_eq_true] at htiled
          simpa using htiled.1
        exact absurd ((hsh c hc) hfs).1 (by simp [hnotfloat])
      · intro he
        exact he ▸ hsh c hc
  · exact hsh

theorem fsClientInv_congr (m m' : Monitor) (c : Client)
    (hx : m'.mx = m.mx) (hy : m'.my = m.my) (hw : m'.mw = m.mw)
    (hh : m'.mh = m.mh) (h : FsClientInv m c) : FsClientInv m' c := by
  intro hfs
  obtain ⟨a, b, d, e, f, g⟩ := h hfs
  exact ⟨a, b, by rw [hx]; exact d, by rw [hy]; exact e,
    by rw [hw]; exact f, by rw [hh]; exact g⟩

theorem arrange_fsInv (cfg : Cfg) (m : Monitor) (h : FsInv m) :
    FsInv (arrange cfg m) := by
  obtain ⟨cs, ls, hshape⟩ := arrange_shape cfg m
  intro c hc
  refine fsClientInv_congr m (arrange cfg m) c ?_ ?_ ?_ ?_ ?_
  · rw [hshape]
  · rw [hshape]
  · rw [hshape]
  · rw [hshape]
  · exact arrange_fsInv_core cfg m m h c hc

/-- C4 (amended): `setfullscreen(c, true)` on a non-fullscreen client
establishes the fullscreen invariant — the client becomes floating with
border width 0 and the monitor's total geometry — and the arrange path
(`showhide` plus the tile and monocle layouts) preserves the invariant for
every client.  (The ConfigureRequest handler does not preserve it; see the
counterexample.) -/
theorem claim_C4_fullscreen_amended (cfg : Cfg) :
    (∀ (m : Monitor) (wn : Nat) (c : Client),
      findC m wn = some c → c.isfullscreen = false →
      ∃ c', findC (setfullscreen cfg m wn true) wn = some c' ∧
        c'.isfullscreen = true ∧ c'.isfloating = true ∧ c'.bw = 0 ∧
        c'.x = m.mx ∧ c'.y = m.my ∧ c'.w = m.mw ∧ c'.h = m.mh) ∧
    (∀ m : Monitor, FsInv m → FsInv (arrange cfg m)) := by
  constructor
  · intro m wn c hfc hnfs
    simp only [setfullscreen, hfc, hnfs]
    rw [if_pos (by simp)]
    have hwin : c.win = wn := findC_win m wn c hfc
    refine ⟨sfEnterClient m c, ?_, rfl, rfl, rfl, rfl, rfl, rfl, rfl⟩
    show (updClients m.clients wn _).find? (fun d => d.win == wn) = _
    rw [find?_updClients_self m.clients wn (fun _ => sfEnterClient m c) (fun d _ => hwin)]
    rw [show m.clients.find? (fun d => d.win == wn) = some c from hfc]
    rfl
  · exact fun m h => arrange_fsInv cfg m h

/-- Reachable scenario refuting C4 as stated: a managed client is put into
fullscreen, then a ConfigureRequest carrying a border-width change is
handled. -/
def c4cfg : Cfg := { bh := 17, sw := 800, sh := 600 }

def c4s1 : Monitor :=
  manage c4cfg (initMonitor 0 0 800 600 0 0 800 583 0) 5 10 10 100 100 2
    none 0 false {}

def c4s2 : Monitor := setfullscreen c4cfg c4s1 5 true

def c4ev : CRE := { cwbw := true, ebw := 7 }

def c4s3 : Monitor := configurerequest c4cfg c4s2 5 c4ev

/-- C4 (counterexample): the fullscreen invariant holds before the
ConfigureRequest and fails after it — the handler honors the requested
border width 7 on the fullscreen client — so the invariant is not preserved
by every event handler, contrary to the claim. -/
theorem claim_C4_fullscreen_counterexample :
    Reach c4cfg c4s3 ∧ FsInv c4s2 ∧ ¬ FsInv c4s3 :=
  ⟨Reach.stepConfigurerequest
    (Reach.stepSetfullscreen
      (Reach.stepManage (Reach.init 0 0 800 600 0 0 800 583 0)
        5 10 10 100 100 2 none 0 false {}) 5 true) 5 c4ev,
   by decide, by decide⟩

theorem claim_C4_fullscreen_amended_witness :
    (∃ c', findC (setfullscreen c4cfg c4s1 5 true) 5 = some c' ∧
      c'.isfullscreen = true ∧ c'.isfloating = true ∧ c'.bw = 0 ∧
      c'.x = c4s1.mx ∧ c'.y = c4s1.my ∧ c'.w = c4s1.mw ∧ c'.h = c4s1.mh) ∧
    FsInv (arrange c4cfg c4s2) := by
  constructor
  · exact (claim_C4_fullscreen_amended c4cfg).1 c4s1 5
      (c4s1.clients.find? (fun c => c.win == 5)).get!
      (by decide) (by decide)
  · exact (claim_C4_fullscreen_amended c4cfg).2 c4s2 (by decide)

theorem resize_win (cfg : Cfg) (m : Monitor) (c : Client) (g : G4)
    (i : Bool) : (resize cfg m c g i).win = c.win :=
  congrArg Prod.fst (resize_ckey cfg m c g i)

/-- The client produced by a fullscreen round trip: geometry, border and
floating state are back to the original values, while the `old*` backup
fields now hold copies of the current values. -/
def sfRestored (c : Client) : Client :=
  { c with oldx := c.x, oldy := c.y, oldw := c.w, oldh := c.h, oldbw := c.bw, oldstate := c.isfloating, isfullscreen := false }

theorem sfRound_client (m : Monitor) (c : Client) :
    sfExitClient (sfEnterClient m c) = sfRestored c := rfl

theorem setfullscreen_exit (cfg : Cfg) (m1 : Monitor) (wn : Nat)
    (c2 : Client) (hfc : findC m1 wn = some c2)
    (hfs : c2.isfullscreen = true) :
    setfullscreen cfg m1 wn false =
      arrange cfg
        { m1 with clients := updClients m1.clients wn (fun _ => sfExitClient c2) } := by
  simp only [setfullscreen, hfc, hfs]
  rw [if_neg (by simp), if_pos (by simp)]

theorem find?_foldl_upd (f : Client → Client) (wn : Nat) (c : Client)
    (hwin : ∀ d, (f d).win = d.win) (hfix : f c = c) :
    ∀ (st : List Nat) (l : List Client),
      l.find? (fun d => d.win == wn) = some c →
      (st.foldl (fun cs u => updClients cs u f) l).find? (fun d => d.win == wn)
        = some c := by
  intro st
  induction st with
  | nil => intro l h; exact h
  | cons u st ih =>
    intro l h
    simp only [List.foldl_cons]
    apply ih
    by_cases hu : u = wn
    · subst hu
      rw [find?_updClients_self l u f (fun d hd => (hwin d).trans hd), h]
      simp [hfix]
    · rw [find?_updClients_ne l u wn f (fun d hd => (hwin d).trans hd)
        (fun he => hu he.symm)]
      exact h

theorem tileLoop_find?_stable (cfg : Cfg) (m : Monitor) (ts mwN n : Nat)
    (wn : Nat) (c : Client) (hnt : tiledB ts c = false) :
    ∀ (i my ty : Nat) (l : List Client),
      l.find? (fun d => d.win == wn) = some c →
      (tileLoop cfg m ts mwN n i my ty l).find? (fun d => d.win == wn)
        = some c := by
  intro i my ty l
  induction l generalizing i my ty with
  | nil => intro h; simp at h
  | cons d ds ih =>
    intro h
    by_cases hd : d.win = wn
    · rw [List.find?_cons_of_pos _ (by simpa using hd)] at h
      have hdc : d = c := by simpa using h
      subst hdc
      simp only [tileLoop, hnt, Bool.false_eq_true, if_false]
      rw [List.find?_cons_of_pos _ (by simpa using hd)]
    · rw [List.find?_cons_of_neg _ (by simpa using hd)] at h
      simp only [tileLoop]
      split
      · split
        · rw [List.find?_cons_of_neg _ (by simp [resize_win, hd])]
          exact ih _ _ _ h
        · rw [List.find?_cons_of_neg _ (by simp [resize_win, hd])]
          exact ih _ _ _ h
      · rw [List.find?_cons_of_neg _ (by simpa using hd)]
        exact ih _ _ _ h

theorem tile_findC_stable (cfg : Cfg) (m : Monitor) (wn : Nat) (c : Client)
    (hfind : findC m wn = some c) (hfl : c.isfloating = true) :
    findC (tile cfg m) wn = some c := by
  have hnt : tiledB m.activeTagset c = false := by simp [tiledB, hfl]
  simp only [tile]
  split
  · exact hfind
  · exact tileLoop_find?_stable cfg m m.activeTagset _ _ wn c hnt 0 0 0
      m.clients hfind

theorem find?_map_stable (g : Client → Client) (wn : Nat) (c : Client)
    (hwin : ∀ d, (g d).win = d.win) (hfix : g c = c) :
    ∀ l : List Client, l.find? (fun d => d.win == wn) = some c →
      (l.map g).find? (fun d => d.win == wn) = some c := by
  intro l
  induction l with
  | nil => intro h; simp at h
  | cons d ds ih =>
    intro h
    by_cases hd : d.win = wn
    · rw [List.find?_cons_of_pos _ (by simpa using hd)] at h
      have hdc : d = c := by simpa using h
      subst hdc
      simp only [List.map_cons]
      rw [List.find?_cons_of_pos _ (by simp [hwin, hd]), hfix]
    · rw [List.find?_cons_of_neg _ (by simpa using hd)] at h
      simp only [List.map_cons]
      rw [List.find?_cons_of_neg _ (by simp [hwin, hd])]
      exact ih h

theorem monocle_findC_stable (cfg : Cfg) (m : Monitor) (wn : Nat)
    (c : Client) (hfind : findC m wn = some c) (hfl : c.isfloating = true) :
    findC (monocle cfg m) wn = some c := by
  have hnt : tiledB m.activeTagset c = false := by simp [tiledB, hfl]
  simp only [monocle]
  split
  · refine find?_map_stable _ wn c (fun d => ?_) ?_ m.clients hfind
    · dsimp only
      split
      · exact resize_win ..
      · rfl
    · dsimp only
      rw [hnt]
      simp
  · refine find?_map_stable _ wn c (fun d => ?_) ?_ m.clients hfind
    · dsimp only
      split
      · exact resize_win ..
      · rfl
    · dsimp only
      rw [hnt]
      simp

theorem arrangemon_findC_stable (cfg : Cfg) (m : Monitor) (wn : Nat)
    (c : Client) (hfind : findC m wn = some c) (hfl : c.isfloating = true) :
    findC (arrangemon cfg m) wn = some c := by
  simp only [arrangemon]
  split
  · exact tile_findC_stable cfg _ wn c hfind hfl
  · exact monocle_findC_stable cfg _ wn c hfind hfl
  · exact hfind

theorem arrange_findC_stable (cfg : Cfg) (m : Monitor) (wn : Nat)
    (c : Client) (hfind : findC m wn = some c) (hfl : c.isfloating = true)
    (hshc : showhideClient cfg m c = c) :
    findC (arrange cfg m) wn = some c := by
  have hA : findC (showhide cfg m) wn = some c := by
    show (m.stack.foldl (fun cs u => updClients cs u (showhideClient cfg m))
      m.clients).find? (fun d => d.win == wn) = some c
    exact find?_foldl_upd (showhideClient cfg m) wn c
      (fun d => congrArg Prod.fst (showhideClient_ckey cfg m d)) hshc
      m.stack m.clients hfind
  exact arrangemon_findC_stable cfg (showhide cfg m) wn c hA hfl

theorem showhideClient_of_resize_fix (cfg : Cfg) (m' : Monitor) (c : Client)
    (h : applysizehints cfg m' c false ⟨c.x, c.y, c.w, c.h⟩
      = ⟨c.x, c.y, c.w, c.h⟩) :
    showhideClient cfg m' c = c := by
  simp only [showhideClient]
  split
  · split
    · simp only [resize]
      rw [h]
      simp
    · rfl
  · rfl

/-- C3 (amended): for a client that is not already fullscreen, is floating,
and whose stored geometry is a fixed point of the size-hint adjustment, the
composite `setfullscreen(c, true); setfullscreen(c, false)` restores the
client's x, y, w, h and border width.  (Without these provisos the round
trip fails; see the counterexample for an already-fullscreen client.) -/
theorem claim_C3_roundtrip_amended (cfg : Cfg) (m : Monitor) (wn : Nat)
    (c : Client) (hfc : findC m wn = some c)
    (hnfs : c.isfullscreen = false) (hfl : c.isfloating = true)
    (hstable : applysizehints cfg m c false ⟨c.x, c.y, c.w, c.h⟩
      = ⟨c.x, c.y, c.w, c.h⟩) :
    ∃ c', findC (setfullscreen cfg (setfullscreen cfg m wn true) wn false) wn
        = some c' ∧
      c'.x = c.x ∧ c'.y = c.y ∧ c'.w = c.w ∧ c'.h = c.h ∧ c'.bw = c.bw := by
  have hwin : c.win = wn := findC_win m wn c hfc
  have h1 : setfullscreen cfg m wn true
      = { m with clients := updClients m.clients wn (fun _ => sfEnterClient m c) } := by
    simp only [setfullscreen, hfc, hnfs]
    rw [if_pos (by simp)]
  have h2 : findC (setfullscreen cfg m wn true) wn
      = some (sfEnterClient m c) := by
    rw [h1]
    show (updClients m.clients wn _).find? (fun d => d.win == wn) = _
    rw [find?_updClients_self m.clients wn (fun _ => sfEnterClient m c)
      (fun d _ => hwin)]
    rw [show m.clients.find? (fun d => d.win == wn) = some c from hfc]
    rfl
  have h3 := setfullscreen_exit cfg (setfullscreen cfg m wn true) wn
    (sfEnterClient m c) h2 rfl
  rw [h3]
  rw [h1] at h2 ⊢
  refine ⟨sfRestored c, ?_, rfl, rfl, rfl, rfl, rfl⟩
  apply arrange_findC_stable
  · show (updClients (updClients m.clients wn (fun _ => sfEnterClient m c))
      wn _).find? (fun d => d.win == wn) = _
    rw [find?_updClients_self
      (updClients m.clients wn (fun _ => sfEnterClient m c)) wn
      (fun _ => sfExitClient (sfEnterClient m c)) (fun d _ => hwin)]
    rw [show (updClients m.clients wn (fun _ => sfEnterClient m c)).find?
      (fun d => d.win == wn) = some (sfEnterClient m c) from h2]
    rfl
  · exact hfl
  · exact showhideClient_of_resize_fix cfg _ (sfRestored c) hstable

/-- Reachable scenario refuting C3 as stated: a managed client is put into
fullscreen; from that state the round trip is not the identity on the
geometry, because the first call is a no-op on an already-fullscreen client
and the second restores the `old*` backups. -/
def c3cfg : Cfg := { bh := 17, sw := 800, sh := 600 }

def c3m1 : Monitor :=
  manage c3cfg (initMonitor 0 0 800 600 0 0 800 583 0) 6 10 20 200 100 2
    none 0 false {}

def c3m2 : Monitor := setfullscreen c3cfg c3m1 6 true

/-- C3 (counterexample): in a reachable state holding an already-fullscreen
client, `setfullscreen(c, true); setfullscreen(c, false)` does not restore
the client's pre-composite x, y, w, h and border width — the first call is
a no-op and the second swaps in the `old*` backups, so the geometry and
border change. -/
theorem claim_C3_roundtrip_counterexample :
    Reach c3cfg c3m2 ∧
    (findC (setfullscreen c3cfg (setfullscreen c3cfg c3m2 6 true) 6 false)
        6).map (fun c => (c.x, c.y, c.w, c.h, c.bw))
      ≠ (findC c3m2 6).map (fun c => (c.x, c.y, c.w, c.h, c.bw)) :=
  ⟨Reach.stepSetfullscreen
    (Reach.stepManage (Reach.init 0 0 800 600 0 0 800 583 0)
      6 10 20 200 100 2 none 0 false {}) 6 true,
   by decide⟩

def c3wcfg : Cfg := { bh := 17, sw := 800, sh := 600 }

def c3wc : Client :=
  { win := 9, tags := 1, isfloating := true, bw := 2, x := 10, y := 20, w := 200, h := 100 }

def c3wm : Monitor :=
  { initMonitor 0 0 800 600 0 0 800 583 0 with clients := [c3wc], stack := [9], sel := some 9 }

theorem claim_C3_roundtrip_amended_witness :
    ∃ c', findC (setfullscreen c3wcfg (setfullscreen c3wcfg c3wm 9 true) 9
        false) 9 = some c' ∧
      c'.x = c3wc.x ∧ c'.y = c3wc.y ∧ c'.w = c3wc.w ∧ c'.h = c3wc.h ∧
      c'.bw = c3wc.bw :=
  claim_C3_roundtrip_amended c3wcfg c3wm 9 c3wc (by decide) (by decide)
    (by decide) (by decide)

/-- The per-dimension effect of the ICCCM block of `applysizehints` when no
aspect hints are set: subtract the base size, round down to the increment,
clamp from below by the minimum and (when nonzero) from above by the
maximum. -/
def hdim (base minv maxv incv w0 : Int) : Int :=
  let w2 := w0 - base
  let w3 := if incv ≠ 0 then w2 - Int.tmod w2 incv else w2
  let w4 := max (w3 + base) minv
  if maxv ≠ 0 then min w4 maxv else w4

theorem hintAdjust_off (c : Client) (w0 h0 : Int)
    (hna : ¬(0 < c.mina ∧ 0 < c.maxa)) :
    hintAdjust c w0 h0 =
      (hdim c.basew c.minw c.maxw c.incw w0,
       hdim c.baseh c.minh c.maxh c.inch h0) := by
  simp only [hintAdjust, hdim]
  rw [if_neg hna]
  cases hb : (c.basew == c.minw && c.baseh == c.minh) <;> simp [hb]

theorem hdim_post (base minv maxv incv w0 : Int)
    (hmax : maxv = 0 ∨ (minv ≤ maxv ∧ (incv = 0 ∨ incv ∣ (maxv - base)))) :
    minv ≤ hdim base minv maxv incv w0 ∧
    (maxv ≠ 0 → hdim base minv maxv incv w0 ≤ maxv) ∧
    (incv ≠ 0 →
      incv ∣ (hdim base minv maxv incv w0 - base) ∨
      hdim base minv maxv incv w0 = minv) := by
  simp only [hdim]
  by_cases hinc : incv = 0
  · rw [if_neg (show ¬ (incv ≠ 0) from fun h => h hinc)]
    refine ⟨?_, ?_, fun h => absurd hinc h⟩
    · split
      · rename_i hmz
        rcases hmax with h0 | ⟨hmm, _⟩
        · exact absurd h0 hmz
        · exact le_min (le_max_right _ _) hmm
      · exact le_max_right _ _
    · intro hmz
      rw [if_pos hmz]
      exact min_le_right _ _
  · rw [if_pos hinc]
    have hid := Int.tdiv_add_tmod (w0 - base) incv
    have hdvd3 : incv ∣ (w0 - base - Int.tmod (w0 - base) incv) :=
      ⟨(w0 - base).tdiv incv, by linarith⟩
    refine ⟨?_, ?_, fun _ => ?_⟩
    · split
      · rename_i hmz
        rcases hmax with h0 | ⟨hmm, _⟩
        · exact absurd h0 hmz
        · exact le_min (le_max_right _ _) hmm
      · exact le_max_right _ _
    · intro hmz
      rw [if_pos hmz]
      exact min_le_right _ _
    · rcases le_or_lt minv (w0 - base - Int.tmod (w0 - base) incv + base)
        with hc | hc
      · rw [max_eq_left hc]
        split
        · rename_i hmz
          rcases hmax with h0 | ⟨hmm, hd⟩
          · exact absurd h0 hmz
          · rcases le_or_lt (w0 - base - Int.tmod (w0 - base) incv + base)
              maxv with hc2 | hc2
            · rw [min_eq_left hc2]
              left
              have he : w0 - base - Int.tmod (w0 - base) incv + base - base
                  = w0 - base - Int.tmod (w0 - base) incv := by omega
              rw [he]
              exact hdvd3
            · rw [min_eq_right hc2.le]
              rcases hd with h0 | hdM
              · exact absurd h0 hinc
              · exact Or.inl hdM
        · left
          have he : w0 - base - Int.tmod (w0 - base) incv + base - base
              = w0 - base - Int.tmod (w0 - base) incv := by omega
          rw [he]
          exact hdvd3
      · rw [max_eq_right hc.le]
        split
        · rename_i hmz
          rcases hmax with h0 | ⟨hmm, _⟩
          · exact absurd h0 hmz
          · rw [min_eq_left hmm]
            exact Or.inr rfl
        · exact Or.inr rfl

theorem hdim_fix (base minv maxv incv r : Int) (hbm : base ≤ minv)
    (h1 : minv ≤ r) (h2 : maxv ≠ 0 → r ≤ maxv)
    (h3 : incv ≠ 0 → incv ∣ (r - base) ∨ r = minv) :
    hdim base minv maxv incv r = r := by
  simp only [hdim]
  have h4 : max ((if incv ≠ 0 then r - base - Int.tmod (r - base) incv
      else r - base) + base) minv = r := by
    by_cases hinc : incv = 0
    · rw [if_neg (fun h => h hinc)]
      have he : r - base + base = r := by omega
      rw [he]
      exact max_eq_left h1
    · rw [if_pos hinc]
      rcases h3 hinc with hdvd | hrmin
      · obtain ⟨k, hk⟩ := hdvd
        have ht : Int.tmod (r - base) incv = 0 := by
          rw [hk]
          exact Int.mul_tmod_right incv k
        rw [ht]
        have he : r - base - 0 + base = r := by omega
        rw [he]
        exact max_eq_left h1
      · have ht : 0 ≤ Int.tmod (r - base) incv :=
          Int.tmod_nonneg incv (by omega)
        have hle : r - base - Int.tmod (r - base) incv + base ≤ minv := by
          omega
        rw [max_eq_right hle, hrmin]
  rw [h4]
  split
  · rename_i hmz
    exact min_eq_left (h2 hmz)
  · rfl

theorem hdim_idem (base minv maxv incv w0 : Int) (hbm : base ≤ minv)
    (hmax : maxv = 0 ∨ (minv ≤ maxv ∧ (incv = 0 ∨ incv ∣ (maxv - base)))) :
    hdim base minv maxv incv (hdim base minv maxv incv w0)
      = hdim base minv maxv incv w0 := by
  obtain ⟨p1, p2, p3⟩ := hdim_post base minv maxv incv w0 hmax
  exact hdim_fix base minv maxv incv _ hbm p1 p2 p3

theorem applysizehints_shape_hints (cfg : Cfg) (m : Monitor) (c : Client)
    (interact : Bool) (g : G4) (hha : hintsApply cfg m c = true)
    (hna : ¬(0 < c.mina ∧ 0 < c.maxa)) :
    ∃ x0 y0 w0 h0, applysizehints cfg m c interact g
      = ⟨x0, y0, hdim c.basew c.minw c.maxw c.incw w0,
         hdim c.baseh c.minh c.maxh c.inch h0⟩ := by
  refine ⟨(containGeom cfg m c interact ⟨g.gx, g.gy, max 1 g.gw, max 1 g.gh⟩).gx,
    (containGeom cfg m c interact ⟨g.gx, g.gy, max 1 g.gw, max 1 g.gh⟩).gy,
    (if (containGeom cfg m c interact ⟨g.gx, g.gy, max 1 g.gw, max 1 g.gh⟩).gw < cfg.bh then cfg.bh else (containGeom cfg m c interact ⟨g.gx, g.gy, max 1 g.gw, max 1 g.gh⟩).gw),
    (if (containGeom cfg m c interact ⟨g.gx, g.gy, max 1 g.gw, max 1 g.gh⟩).gh < cfg.bh then cfg.bh else (containGeom cfg m c interact ⟨g.gx, g.gy, max 1 g.gw, max 1 g.gh⟩).gh), ?_⟩
  simp only [applysizehints]
  rw [if_pos hha, hintAdjust_off c _ _ hna]

/-- C5 (amended): `applysizehints` is idempotent on its own output for a
client without aspect hints whose base sizes do not exceed the minimum
sizes and whose maximum sizes, when set, dominate the minima and are
reachable by whole increments, provided the produced geometry is at least
the bar height in both dimensions and is a fixed point of the containment
step.  (Unrestricted idempotence is false; see the counterexample, where a
maximum width not aligned to the width increment makes a second application
shrink the width again.) -/
theorem claim_C5_idempotent_amended (cfg : Cfg) (m : Monitor) (c : Client)
    (interact : Bool) (g r : G4)
    (hna : ¬(0 < c.mina ∧ 0 < c.maxa))
    (hbw : c.basew ≤ c.minw) (hbh : c.baseh ≤ c.minh)
    (hmw : c.maxw = 0 ∨
      (c.minw ≤ c.maxw ∧ (c.incw = 0 ∨ c.incw ∣ (c.maxw - c.basew))))
    (hmh : c.maxh = 0 ∨
      (c.minh ≤ c.maxh ∧ (c.inch = 0 ∨ c.inch ∣ (c.maxh - c.baseh))))
    (hr : r = applysizehints cfg m c interact g)
    (hb1 : 1 ≤ cfg.bh) (hgw : cfg.bh ≤ r.gw) (hgh : cfg.bh ≤ r.gh)
    (hcont : containGeom cfg m c interact r = r) :
    applysizehints cfg m c interact r = r := by
  have hw1 : max 1 r.gw = r.gw := max_eq_right (hb1.trans hgw)
  have hh1 : max 1 r.gh = r.gh := max_eq_right (hb1.trans hgh)
  simp only [applysizehints]
  rw [hw1, hh1]
  rw [show (⟨r.gx, r.gy, r.gw, r.gh⟩ : G4) = r from rfl]
  rw [hcont]
  have hw2 : (if r.gw < cfg.bh then cfg.bh else r.gw) = r.gw :=
    if_neg (by omega)
  have hh2 : (if r.gh < cfg.bh then cfg.bh else r.gh) = r.gh :=
    if_neg (by omega)
  rw [hw2, hh2]
  split
  · rename_i hha
    rw [hintAdjust_off c r.gw r.gh hna]
    obtain ⟨x0, y0, w0, h0, hshape⟩ :=
      applysizehints_shape_hints cfg m c interact g hha hna
    have hgweq : r.gw = hdim c.basew c.minw c.maxw c.incw w0 := by
      rw [hr, hshape]
    have hgheq : r.gh = hdim c.baseh c.minh c.maxh c.inch h0 := by
      rw [hr, hshape]
    have hW : hdim c.basew c.minw c.maxw c.incw r.gw = r.gw := by
      rw [hgweq]
      exact hdim_idem c.basew c.minw c.maxw c.incw w0 hbw hmw
    have hH : hdim c.baseh c.minh c.maxh c.inch r.gh = r.gh := by
      rw [hgheq]
      exact hdim_idem c.baseh c.minh c.maxh c.inch h0 hbh hmh
    show (⟨r.gx, r.gy, hdim c.basew c.minw c.maxw c.incw r.gw,
      hdim c.baseh c.minh c.maxh c.inch r.gh⟩ : G4) = r
    rw [hW, hH]
  · rfl

/-- Inputs refuting C5 as stated: a width increment of 7 together with a
maximum width of 10 that is not a multiple of the increment. -/
def c5cfg : Cfg := { bh := 1, sw := 100, sh := 100 }

def c5c : Client :=
  { win := 7, tags := 1, bw := 0, isfloating := true, incw := 7, maxw := 10 }

def c5m : Monitor := initMonitor 0 0 100 100 0 0 100 100 0

/-- C5 (counterexample): for a client with width increment 7 and maximum
width 10, applying `applysizehints` to the proposal (0, 0, 20, 20) yields
width 10 (rounded to 14 by the increment, then clamped to the maximum), but
a second application yields width 7 — the adjustment is not idempotent. -/
theorem claim_C5_idempotent_counterexample :
    applysizehints c5cfg c5m c5c false
        (applysizehints c5cfg c5m c5c false ⟨0, 0, 20, 20⟩)
      ≠ applysizehints c5cfg c5m c5c false ⟨0, 0, 20, 20⟩ := by
  decide

def c5wcfg : Cfg := { bh := 17, sw := 800, sh := 600 }

def c5wc : Client :=
  { win := 3, tags := 1, isfloating := true, bw := 1, x := 10, y := 10, w := 100, h := 100 }

def c5wm : Monitor := initMonitor 0 0 800 600 0 0 800 583 0

theorem claim_C5_idempotent_amended_witness :
    applysizehints c5wcfg c5wm c5wc false ⟨10, 10, 100, 100⟩
      = ⟨10, 10, 100, 100⟩ :=
  claim_C5_idempotent_amended c5wcfg c5wm c5wc false ⟨10, 10, 100, 100⟩
    ⟨10, 10, 100, 100⟩ (by decide) (by decide) (by decide) (Or.inl rfl)
    (Or.inl rfl) (by decide) (by decide) (by decide) (by decide) (by decide)

end Dwm
